import Mathlib

/-!
Verification development for the Ghost blog static builder (`deploy.js`).

The build pipeline mirrors a local Ghost instance into an output directory
(`dist`), fetches supplementary resources (404 page, RSS feed, sitemaps),
audits HTML files for image references and downloads missing assets,
sanitizes filenames, applies structural fixes, and rewrites file contents
(origin substitution, cache-buster stripping, Ghost-portal script removal,
XML-specific rewrites) before publishing.

Strings are modelled as `List Char`.  JavaScript `String.replace` with a
global regex is modelled by left-to-right scanners; file systems are
modelled as association lists from path to content (or plain lists of
paths where contents are irrelevant).
-/

namespace GhostBuilder

/-- Strings are modelled as lists of characters. -/

abbrev Str := List Char

/-- View a Lean string literal as a `Str`. -/

def str (s : String) : Str := s.data

/-! ### Literal global replacement

`deploy.js` rewrites origins with `new RegExp(CONFIG.ghostUrl, 'g')` etc.
The default `GHOST_URL` (`http://localhost:2368`) and the other origin
patterns contain no regex metacharacters, so the regex matches exactly the
literal pattern string.  JavaScript `String.replace` with a global regex
finds non-overlapping matches left to right and resumes scanning after
each match. -/

/-- Fuel-indexed worker for `replaceAll`.  At each position, if the literal
pattern matches, emit the replacement and resume after the matched text,
otherwise emit one character and move on.  The fuel argument only serves
termination; `replaceAll` always supplies enough. -/

def replaceAllGo (pat rep : Str) : Nat → Str → Str
  | 0, s => s
  | fuel + 1, s =>
    if pat ≠ [] ∧ pat <+: s then
      rep ++ replaceAllGo pat rep fuel (s.drop pat.length)
    else
      match s with
      | [] => []
      | c :: rest => c :: replaceAllGo pat rep fuel rest

/-- Global replacement of the literal string `pat` by `rep`, as performed by
`String.replace(new RegExp(pat, 'g'), rep)` for a metacharacter-free `pat`. -/

def replaceAll (pat rep s : Str) : Str := replaceAllGo pat rep s.length s

/-- A pattern whose occurrences cannot self-overlap. -/

def NoBorder (pat : Str) : Prop :=
  ∀ d, 0 < d → d < pat.length → pat.drop d ≠ pat.take (pat.length - d)

/-! ### Concrete configuration

The spec's running example: source origin `http://localhost:2368` (the
default `GHOST_URL` in `deploy.js`) and destination `https://blog.example.com`
(`DEPLOY_URL`). -/

def srcOrigin : Str := str "http://localhost:2368"

def dstOrigin : Str := str "https://blog.example.com"

/-- Protocol-relative source host reference, `//${ghostDomain}` in stage 5a. -/

def protoSrc : Str := str "//localhost:2368"

/-- Protocol-relative destination host reference, `//${deployDomain}`. -/

def protoDst : Str := str "//blog.example.com"

/-- The origin-substitution pass: `new RegExp(CONFIG.ghostUrl, 'g')`
replaced by `CONFIG.deployUrl`. -/

def originSub (s : Str) : Str := replaceAll srcOrigin dstOrigin s

/-- The protocol-relative host rewrite of stage 5a. -/

def protoSub (s : Str) : Str := replaceAll protoSrc protoDst s

/-! ### The cache-buster stripping regex

`/((?:\.css|\.js|\.png|\.jpg|\.svg|\.webp))([?@][^"'\s>]*)/g` with
replacement `'$1'`: a known static-asset extension followed by `?` or `@`
and a run of characters other than quotes, whitespace and `>`; the suffix
after the extension is deleted. -/

/-- The JavaScript regex character class `\s`. -/

def jsSpace (c : Char) : Bool :=
  c == ' ' || c == '\t' || c == '\n' || c == '\r' ||
  c == Char.ofNat 11 || c == Char.ofNat 12 ||
  c == Char.ofNat 0xa0 || c == Char.ofNat 0x1680 ||
  (decide (0x2000 ≤ c.toNat) && decide (c.toNat ≤ 0x200a)) ||
  c == Char.ofNat 0x2028 || c == Char.ofNat 0x2029 || c == Char.ofNat 0x202f ||
  c == Char.ofNat 0x205f || c == Char.ofNat 0x3000 || c == Char.ofNat 0xfeff

/-- Characters matched by `[^"'\s>]` (the cache-buster suffix run). -/

def bustAllowed (c : Char) : Bool :=
  !(c == '"' || c == Char.ofNat 39 || jsSpace c || c == '>')

/-- The static-asset extensions of the cache-buster regex, in alternation
order. -/

def cacheExts : List Str :=
  [str ".css", str ".js", str ".png", str ".jpg", str ".svg", str ".webp"]

/-- The first extension of the alternation matching at this position. -/

def firstExt (s : Str) : Option Str :=
  cacheExts.find? (fun e => e.isPrefixOf s)

/-- Attempt to match the cache-buster regex at the start of `s`.  On
success, return the matched extension (kept by the `'$1'` replacement) and
the text after the whole match. -/

def tryCacheMatch (s : Str) : Option (Str × Str) :=
  match firstExt s with
  | none => none
  | some e =>
    match s.drop e.length with
    | [] => none
    | q :: rest =>
      if q == '?' || q == '@' then some (e, rest.dropWhile bustAllowed)
      else none

def cacheBustGo : Nat → Str → Str
  | 0, s => s
  | fuel + 1, s =>
    match s with
    | [] => []
    | c :: rest =>
      match tryCacheMatch (c :: rest) with
      | some (e, after) => e ++ cacheBustGo fuel after
      | none => c :: cacheBustGo fuel rest

/-- The cache-buster stripping pass of stage 5. -/

def cacheBust (s : Str) : Str := cacheBustGo s.length s

/-! ### The Ghost-portal script removal regex

`/<script.*ghost-portal.*><\/script>/g` with replacement `''`.  JavaScript
`.` matches any character except a line terminator; `.*` is greedy, so the
engine tries the largest extents first and backtracks. -/

/-- Characters matched by the JavaScript regex `.` (not a line
terminator). -/

def dotChar (c : Char) : Bool :=
  !(c == '\n' || c == '\r' || c == Char.ofNat 0x2028 || c == Char.ofNat 0x2029)

/-- Greedy backtracking search for `.*needle` followed by a continuation:
try the largest offset `k` first; at each `k` whose prefix is all
dot-matchable and where `needle` matches, run the continuation on the text
after the needle, backtracking to smaller offsets on failure. -/

def greedyScan (needle : Str) (cont : Str → Option Str) : Nat → Str → Option Str
  | 0, s =>
    if needle.isPrefixOf s then cont (s.drop needle.length) else none
  | k + 1, s =>
    if (s.take (k + 1)).all dotChar ∧ needle.isPrefixOf (s.drop (k + 1)) then
      match cont ((s.drop (k + 1)).drop needle.length) with
      | some r => some r
      | none => greedyScan needle cont k s
    else greedyScan needle cont k s

def portalOpen : Str := str "<script"

def portalNeedle : Str := str "ghost-portal"

def portalClose : Str := str "></script>"

/-- Attempt to match `<script.*ghost-portal.*><\/script>` at the start of
`s`; on success return the text after the match. -/

def portalTry (s : Str) : Option Str :=
  if portalOpen.isPrefixOf s then
    let body := s.drop portalOpen.length
    greedyScan portalNeedle
      (fun t => greedyScan portalClose some t.length t) body.length body
  else none

def portalRemoveGo : Nat → Str → Str
  | 0, s => s
  | fuel + 1, s =>
    match s with
    | [] => []
    | c :: rest =>
      match portalTry (c :: rest) with
      | some after => portalRemoveGo fuel after
      | none => c :: portalRemoveGo fuel rest

/-- The Ghost-portal script removal pass of stage 5 (replacement `''`). -/

def portalRemove (s : Str) : Str := portalRemoveGo s.length s

/-! ### The XML stylesheet processing-instruction regex

`/<\?xml-stylesheet[^?]*\?>/g` with replacement `''` (stage 5a). -/

def xmlStyOpen : Str := str "<?xml-stylesheet"

/-- Attempt to match `<\?xml-stylesheet[^?]*\?>` at the start of `s`.  The
`[^?]*` run necessarily stops at the first `?`, which must be followed by
`>`. -/

def xmlStyTry (s : Str) : Option Str :=
  if xmlStyOpen.isPrefixOf s then
    match (s.drop xmlStyOpen.length).dropWhile (fun c => !(c == '?')) with
    | q :: g :: rest => if q == '?' && g == '>' then some rest else none
    | _ => none
  else none

def xmlStyRemoveGo : Nat → Str → Str
  | 0, s => s
  | fuel + 1, s =>
    match s with
    | [] => []
    | c :: rest =>
      match xmlStyTry (c :: rest) with
      | some after => xmlStyRemoveGo fuel after
      | none => c :: xmlStyRemoveGo fuel rest

/-- The XSL stylesheet-reference removal pass of stage 5a. -/

def xmlStyRemove (s : Str) : Str := xmlStyRemoveGo s.length s

/-! ### The content rewrite stage (stages 5 and 5a of `deploy.js`) -/

/-- Rewrite of one `*.html` file: origin swap, then cache-buster stripping,
then Ghost-portal removal — the order of the `from`/`to` arrays at lines
162-170 of `deploy.js`. -/

def htmlRewrite (s : Str) : Str := portalRemove (cacheBust (originSub s))

/-- Rewrite of one `*.xml` file: origin swap, protocol-relative host swap,
then stylesheet-reference removal — lines 175-187 of `deploy.js`. -/

def xmlRewrite (s : Str) : Str := xmlStyRemove (protoSub (originSub s))

/-- Does a path match the glob `dist/**/*.html`? -/

def isHtmlName (n : Str) : Bool := (str ".html").isSuffixOf n

/-- Does a path match the glob `dist/**/*.xml`? -/

def isXmlName (n : Str) : Bool := (str ".xml").isSuffixOf n

/-- The whole content-rewrite stage over the output directory, modelled as
an association list from path to content. -/

def rewriteStage (files : List (Str × Str)) : List (Str × Str) :=
  files.map fun f =>
    if isHtmlName f.1 then (f.1, htmlRewrite f.2)
    else if isXmlName f.1 then (f.1, xmlRewrite f.2)
    else f

/-- The path suffix of the spec's example URL. -/

def aboutPath : Str := str "/about"

/-! ### Stage 4a: filename sanitation

`getFiles(CONFIG.distDir).forEach(file => { if (/[?=@]/.test(file)) {
const clean = file.split(/[?=@]/)[0]; fs.existsSync(clean) ?
fs.removeSync(file) : fs.moveSync(file, clean); } })` (lines 140-145). -/

/-- The disallowed filename characters, `/[?=@]/`. -/

def disallowed (c : Char) : Bool := c == '?' || c == '=' || c == '@'

def hasDisallowed (p : Str) : Bool := p.any disallowed

/-- `file.split(/[?=@]/)[0]`: the portion of the path strictly before the
first disallowed character. -/

def cleanName (p : Str) : Str := p.takeWhile (fun c => !disallowed c)

def slash : Char := '/'

/-- `fs.existsSync` over a file listing: a path exists when it is a file or
a directory containing some file. -/

def existsEntry (fs : List Str) (p : Str) : Bool :=
  fs.any (fun g => g == p || (p ++ [slash]).isPrefixOf g)

/-- One iteration of the stage-4a `forEach`: delete the dirty-named file
when anything already exists at the cleaned path, otherwise rename it. -/

def sanitizeStep (fs : List Str) (f : Str) : List Str :=
  if hasDisallowed f then
    if existsEntry fs (cleanName f) then fs.erase f
    else cleanName f :: fs.erase f
  else fs

/-- Stage 4a: the listing is taken once up front (`getFiles`), then each
listed file is processed in order. -/

def sanitizeStage (init : List Str) : List Str := init.foldl sanitizeStep init

/-! ### Stage 3: asset scraper (lines 99-133)

The attribute regex `/(?:src|srcset)=["']([^"']+)["']/g`, the per-candidate
processing, and the missing-asset download filter. -/

def isQuote (c : Char) : Bool := c == '"' || c == Char.ofNat 39

/-- After `src=` or `srcset=`: an opening quote, a nonempty run of
non-quote characters (the capture), and a closing quote (either kind). -/

def attrAfterKey (t : Str) : Option (Str × Str) :=
  match t with
  | [] => none
  | q :: rest =>
    if isQuote q then
      match rest.drop (rest.takeWhile (fun c => !isQuote c)).length with
      | q2 :: rest2 =>
        if isQuote q2 ∧ rest.takeWhile (fun c => !isQuote c) ≠ [] then
          some (rest.takeWhile (fun c => !isQuote c), rest2)
        else none
      | [] => none
    else none

/-- Attempt to match `(?:src|srcset)=["']([^"']+)["']` at the start of `s`;
returns the captured value and the text after the match. -/

def tryAttrMatch (s : Str) : Option (Str × Str) :=
  if (str "src=").isPrefixOf s then attrAfterKey (s.drop 4)
  else if (str "srcset=").isPrefixOf s then attrAfterKey (s.drop 7)
  else none

def attrScanGo : Nat → Str → List Str
  | 0, _ => []
  | fuel + 1, s =>
    match s with
    | [] => []
    | c :: rest =>
      match tryAttrMatch (c :: rest) with
      | some (v, after) => v :: attrScanGo fuel after
      | none => attrScanGo fuel rest

/-- All captures of the global attribute regex, left to right
(`content.matchAll(urlPattern)`). -/

def attrScan (s : Str) : List Str := attrScanGo s.length s

/-- JavaScript `String.split(sep)` for a single-character separator. -/

def splitOnChar (sep : Char) : Str → List Str
  | [] => [[]]
  | c :: rest =>
    if c == sep then [] :: splitOnChar sep rest
    else
      match splitOnChar sep rest with
      | [] => [[c]]
      | t :: ts => (c :: t) :: ts

/-- JavaScript `String.trim()`. -/

def jsTrim (s : Str) : Str :=
  ((s.dropWhile jsSpace).reverse.dropWhile jsSpace).reverse

/-- `s.split(/\s+/)[0]`: empty when the string starts with whitespace,
otherwise the leading run of non-whitespace characters. -/

def firstToken (s : Str) : Str :=
  match s with
  | [] => []
  | c :: _ => if jsSpace c then [] else s.takeWhile (fun d => !jsSpace d)

/-- JavaScript `String.includes`. -/

def containsSub (pat s : Str) : Bool := s.tails.any (fun t => pat.isPrefixOf t)

def hexVal (c : Char) : Option Nat :=
  if '0' ≤ c ∧ c ≤ '9' then some (c.toNat - 48)
  else if 'A' ≤ c ∧ c ≤ 'F' then some (c.toNat - 55)
  else if 'a' ≤ c ∧ c ≤ 'f' then some (c.toNat - 87)
  else none

/-- Model of the JavaScript `decodeURIComponent` builtin, restricted to
single-byte percent escapes; other characters pass through unchanged. -/

def decodeURI : Str → Str
  | [] => []
  | '%' :: h1 :: h2 :: rest =>
    match hexVal h1, hexVal h2 with
    | some a, some b => Char.ofNat (16 * a + b) :: decodeURI rest
    | _, _ => '%' :: decodeURI (h1 :: h2 :: rest)
  | c :: rest => c :: decodeURI rest

/-- `url.split(/[?#]/)[0]`. -/

def stripQueryHash (s : Str) : Str :=
  s.takeWhile (fun c => !(c == '?' || c == '#'))

def contentImagesNeedle : Str := str "/content/images/"

/-- Per-attribute-value candidate processing (lines 107-115): split on
commas, trim, keep the first whitespace-separated token, keep candidates
containing `/content/images/`, strip query/hash, percent-decode. -/

def processAttrVal (v : Str) : List Str :=
  (((splitOnChar ',' v).map (fun u => firstToken (jsTrim u))).filter
    (fun url => containsSub contentImagesNeedle url)).map
    (fun url => decodeURI (stripQueryHash url))

/-- All normalized image candidates discovered in one HTML file. -/

def imagesOfContent (s : Str) : List Str :=
  ((attrScan s).map processAttrVal).flatten

/-- The deduplicated set of image candidates over all `*.html` files of the
output directory (`foundImages` is a JavaScript `Set`). -/

def foundImages (files : List (Str × Str)) : List Str :=
  (((files.filter (fun f => isHtmlName f.1)).map
    (fun f => imagesOfContent f.2)).flatten).dedup

/-- `rawPath.replace(/^https?:\/\/[^\/]+/, '')`. -/

def stripHost (u : Str) : Str :=
  if (str "http://").isPrefixOf u then
    if (u.drop 7).takeWhile (fun c => !(c == '/')) = [] then u
    else (u.drop 7).drop ((u.drop 7).takeWhile (fun c => !(c == '/'))).length
  else if (str "https://").isPrefixOf u then
    if (u.drop 8).takeWhile (fun c => !(c == '/')) = [] then u
    else (u.drop 8).drop ((u.drop 8).takeWhile (fun c => !(c == '/'))).length
  else u

/-- `path.join(CONFIG.distDir, relativePath)` (slash normalization of
deeper path oddities is not modelled). -/

def joinDist (rel : Str) : Str :=
  if (str "/").isPrefixOf rel then str "dist" ++ rel else str "dist/" ++ rel

def existsFile (files : List (Str × Str)) (p : Str) : Bool :=
  files.any (fun f => f.1 == p)

/-- The assets the audit stage downloads: discovered images whose local
destination does not exist (lines 119-133). -/

def auditDownloads (files : List (Str × Str)) : List Str :=
  (foundImages files).filter (fun u => !existsFile files (joinDist (stripHost u)))

/-! ### Stage 2/2a: supplementary fetches (lines 63-95) -/

/-- Outcome of one `wget` fetch: a body (possibly empty — Ghost serves
empty or error pages for missing sitemaps) or a transport failure. -/

inductive Fetch where
  | success (body : Str)
  | failure
deriving DecidableEq

def sitemapNames : List Str :=
  [str "sitemap.xml", str "sitemap-pages.xml", str "sitemap-posts.xml",
   str "sitemap-authors.xml", str "sitemap-tags.xml"]

def removeFile (fs : List (Str × Str)) (p : Str) : List (Str × Str) :=
  fs.filter (fun f => !(f.1 == p))

def setFile (fs : List (Str × Str)) (p : Str) (c : Str) : List (Str × Str) :=
  (p, c) :: removeFile fs p

def lookupFile (fs : List (Str × Str)) (p : Str) : Option Str :=
  fs.lookup p

/-- One iteration of the sitemap loop (lines 78-94): `wget -q -O dest url`,
then the size check — a failed fetch deletes whatever is at the
destination, an empty body is deleted too, and a non-empty body is kept
and counted. -/

def sitemapStep (oracle : Str → Fetch) (st : List (Str × Str) × Nat) (m : Str) :
    List (Str × Str) × Nat :=
  match oracle m with
  | Fetch.success body =>
    if 0 < body.length then (setFile st.1 m body, st.2 + 1)
    else (removeFile st.1 m, st.2)
  | Fetch.failure => (removeFile st.1 m, st.2)

/-- The sitemap fetch loop: five fixed names, processed in order, starting
from the state the mirror left behind and a zero success counter. -/

def sitemapRun (oracle : Str → Fetch) (init : List (Str × Str)) :
    List (Str × Str) × Nat :=
  sitemapNames.foldl (sitemapStep oracle) (init, 0)

/-- What the loop leaves at one sitemap path. -/

def sitemapExpected (oracle : Str → Fetch) (m : Str) : Option Str :=
  match oracle m with
  | Fetch.success body => if 0 < body.length then some body else none
  | Fetch.failure => none

def extraPages : List Str := [str "404/", str "rss/"]

/-- Best-effort fetch of an extra page (lines 64-65): a mirror-style `wget`
saves `<page>index.html` on success and leaves nothing on failure (`wget`
does not keep error bodies); errors are ignored. -/

def pageFetch (oracle : Str → Fetch) (fs : List (Str × Str)) (page : Str) :
    List (Str × Str) :=
  match oracle page with
  | Fetch.success body => setFile fs (page ++ str "index.html") body
  | Fetch.failure => fs

/-- Stage 2 and 2a together: extra pages, then the sitemap loop. -/

def supplementaryStage (oracle : Str → Fetch) (init : List (Str × Str)) :
    List (Str × Str) × Nat :=
  sitemapRun oracle (extraPages.foldl (pageFetch oracle) init)

/-- A concrete fetch oracle used to evaluate the supplementary stage on a
sample run: one non-empty sitemap, one empty sitemap, everything else
failing. -/

def oracleW : Str → Fetch := fun m =>
  if m == str "sitemap.xml" then Fetch.success (str "ok")
  else if m == str "sitemap-pages.xml" then Fetch.success []
  else Fetch.failure

/-! ### Stage 4b: structural fixes (lines 148-158) -/

def moveSrc : Str := str "404/index.html"

def moveDst : Str := str "404.html"

def dir404 : Str := str "404/"

def isUnder404 (p : Str) : Bool := dir404.isPrefixOf p

/-- Stage 4b: when `404/index.html` exists, move it to `404.html` with
`{ overwrite: true }`, then `fs.removeSync` the source directory
(recursively, whatever it still contains). -/

def structuralFix (fs : List (Str × Str)) : List (Str × Str) :=
  match lookupFile fs moveSrc with
  | some c =>
    (setFile (removeFile fs moveSrc) moveDst c).filter (fun f => !isUnder404 f.1)
  | none => fs

/-! ### Stage 8: HTML element cleanup

Modelled from the spec: the `elementsToRemove` cleanup stage is documented
in the README (parse each page as a DOM, remove every element matching
each configured selector, skip invalid selectors) but is absent from the
`deploy.js` revisions under `src/`. -/

/-- Modelled from the spec: a DOM tree (the cleanup stage's page model);
the stage itself is missing from `src/deploy.js`. -/

inductive Dom where
  | el (tag : String) (classes : List String) (idAttr : Option String)
      (children : List Dom)
  | txt (s : String)

/-- Modelled from the spec: a configured selector — simple tag, class and
id selectors, plus a syntactically invalid selector. -/

inductive Sel where
  | tagSel (t : String)
  | clsSel (c : String)
  | idSel (i : String)
  | invalidSel (raw : String)
deriving DecidableEq

def selValid : Sel → Bool
  | Sel.invalidSel _ => false
  | _ => true

def selMatches : Sel → Dom → Bool
  | Sel.tagSel t, Dom.el tag _ _ _ => tag == t
  | Sel.clsSel c, Dom.el _ cls _ _ => cls.contains c
  | Sel.idSel i, Dom.el _ _ idAttr _ => idAttr == some i
  | _, _ => false

mutual

/-- Modelled from the spec: remove every element matching the selector
(matching children are dropped, the rest cleaned recursively). -/
def removeSel (sel : Sel) : Dom → Dom
  | Dom.txt s => Dom.txt s
  | Dom.el t c i ch => Dom.el t c i (removeSelList sel ch)

def removeSelList (sel : Sel) : List Dom → List Dom
  | [] => []
  | d :: ds =>
    (if selMatches sel d then [] else [removeSel sel d]) ++ removeSelList sel ds

end

mutual

/-- Number of elements of the tree matching the selector. -/
def countSel (sel : Sel) : Dom → Nat
  | Dom.txt _ => 0
  | Dom.el t c i ch =>
    (if selMatches sel (Dom.el t c i ch) then 1 else 0) + countSelList sel ch

def countSelList (sel : Sel) : List Dom → Nat
  | [] => 0
  | d :: ds => countSel sel d + countSelList sel ds

end

/-- Modelled from the spec: one selector application — an invalid selector
is logged and skipped without aborting. -/

def applySel (p : Dom) (sel : Sel) : Dom :=
  if selValid sel then removeSel sel p else p

/-- Modelled from the spec: the cleanup stage applies the configured
ordered selector list to a page. -/

def cleanupPage (sels : List Sel) (p : Dom) : Dom := sels.foldl applySel p

/-- A sample page used to evaluate the cleanup stage. -/

def pageW : Dom :=
  Dom.el "html" [] none
    [Dom.el "div" ["content"] none [Dom.txt "hello"],
     Dom.el "nav" ["gh-head-actions"] none []]

/-! ### Claim statements -/

/-- Claim C1 as frozen: after the rewrite stage, every file that contained
the source-origin example URL has it rewritten, and no file of the output
directory contains the source origin at all. -/

def C1Statement : Prop :=
  ∀ files : List (Str × Str), ∀ f ∈ files,
    ((srcOrigin ++ aboutPath) <:+: f.2 →
      ∀ g ∈ rewriteStage files, g.1 = f.1 → (dstOrigin ++ aboutPath) <:+: g.2) ∧
    (∀ g ∈ rewriteStage files, ¬ srcOrigin <:+: g.2)

/-- Claim C2 as frozen: the content rewrite stage is idempotent on every
output-directory state. -/

def C2Statement : Prop :=
  ∀ files : List (Str × Str), rewriteStage (rewriteStage files) = rewriteStage files

/-- Claim C3 as frozen: after sanitation, a file survives at the truncated
name of every dirty file, and no filename keeps a disallowed character. -/

def C3Statement : Prop :=
  ∀ init : List Str, init.Nodup →
    (∀ f ∈ init, hasDisallowed f → cleanName f ∈ sanitizeStage init) ∧
    (∀ g ∈ sanitizeStage init, ¬ hasDisallowed g)

/-- Claim C8 as frozen: the move executes only when the source exists,
overwrites the destination, and removes the source directory, which is
asserted to be empty at that point. -/

def C8Statement : Prop :=
  ∀ fs : List (Str × Str),
    (lookupFile fs moveSrc = none → structuralFix fs = fs) ∧
    (∀ c, lookupFile fs moveSrc = some c →
      lookupFile (structuralFix fs) moveDst = some c ∧
      (∀ f ∈ fs, f.1 ≠ moveSrc → ¬ isUnder404 f.1))

/-- The set of strings the cache-buster regex can match. -/

def cacheMatched (m : Str) : Prop :=
  ∃ e q run, e ∈ cacheExts ∧ (q = '?' ∨ q = '@') ∧
    (∀ c ∈ run, bustAllowed c) ∧ m = e ++ q :: run

/-! ## Theorems -/

theorem replaceAllGo_stable (pat rep : Str) :
    ∀ f₁ f₂ s, s.length ≤ f₁ → s.length ≤ f₂ →
      replaceAllGo pat rep f₁ s = replaceAllGo pat rep f₂ s := by
  intro f₁
  induction f₁ with
  | zero =>
    intro f₂ s h₁ _
    have hs : s = [] := List.eq_nil_of_length_eq_zero (Nat.le_zero.mp h₁)
    subst hs
    cases f₂ with
    | zero => rfl
    | succ f₂ =>
      simp only [replaceAllGo]
      rw [if_neg]
      rintro ⟨hne, hpre⟩
      exact hne (List.prefix_nil.mp hpre)
  | succ f₁ ih =>
    intro f₂ s h₁ h₂
    cases f₂ with
    | zero =>
      have hs : s = [] := List.eq_nil_of_length_eq_zero (Nat.le_zero.mp h₂)
      subst hs
      simp only [replaceAllGo]
      rw [if_neg]
      rintro ⟨hne, hpre⟩
      exact hne (List.prefix_nil.mp hpre)
    | succ f₂ =>
      simp only [replaceAllGo]
      by_cases h : pat ≠ [] ∧ pat <+: s
      · rw [if_pos h, if_pos h]
        have hlen : (s.drop pat.length).length ≤ f₁ := by
          have hp : 0 < pat.length := List.length_pos.mpr h.1
          simp only [List.length_drop]
          omega
        have hlen₂ : (s.drop pat.length).length ≤ f₂ := by
          have hp : 0 < pat.length := List.length_pos.mpr h.1
          simp only [List.length_drop]
          omega
        rw [ih f₂ _ hlen hlen₂]
      · rw [if_neg h, if_neg h]
        cases s with
        | nil => rfl
        | cons c rest =>
          have hr : rest.length ≤ f₁ := by simp at h₁; omega
          have hr₂ : rest.length ≤ f₂ := by simp at h₂; omega
          simp only []
          rw [ih f₂ rest hr hr₂]

theorem replaceAll_nil (pat rep : Str) : replaceAll pat rep [] = [] := by
  simp only [replaceAll, List.length_nil, replaceAllGo]

theorem replaceAll_pos (pat rep : Str) {s : Str} (hne : pat ≠ []) (h : pat <+: s) :
    replaceAll pat rep s = rep ++ replaceAll pat rep (s.drop pat.length) := by
  have hs : s ≠ [] := by
    intro hnil
    exact hne (List.prefix_nil.mp (hnil ▸ h))
  obtain ⟨c, rest, rfl⟩ := List.exists_cons_of_ne_nil hs
  simp only [replaceAll, List.length_cons, replaceAllGo]
  rw [if_pos ⟨hne, h⟩]
  congr 1
  apply replaceAllGo_stable
  · have hp : 0 < pat.length := List.length_pos.mpr hne
    simp only [List.length_drop, List.length_cons]
    omega
  · exact le_refl _

theorem replaceAll_neg (pat rep : Str) {c : Char} {rest : Str}
    (h : ¬ pat <+: c :: rest) :
    replaceAll pat rep (c :: rest) = c :: replaceAll pat rep rest := by
  simp only [replaceAll, List.length_cons, replaceAllGo]
  rw [if_neg (by rintro ⟨_, hp⟩; exact h hp)]

/-! ### Structure of prefixes and infixes of appended lists -/

theorem prefix_append_split {x a b : Str} (h : x <+: a ++ b) :
    x <+: a ∨ ∃ t, x = a ++ t ∧ t <+: b := by
  rcases Nat.le_total x.length a.length with hle | hle
  · exact Or.inl (List.prefix_of_prefix_length_le h (List.prefix_append a b) hle)
  · have ha : a <+: x := List.prefix_of_prefix_length_le (List.prefix_append a b) h hle
    obtain ⟨t, rfl⟩ := ha
    refine Or.inr ⟨t, rfl, ?_⟩
    exact (List.prefix_append_right_inj a).mp h

theorem infix_append_split {x a b : Str} (h : x <:+: a ++ b) :
    x <:+: a ∨ x <:+: b ∨
      ∃ x₁ x₂, x = x₁ ++ x₂ ∧ x₁ ≠ [] ∧ x₂ ≠ [] ∧ x₁ <:+ a ∧ x₂ <+: b := by
  induction a generalizing x with
  | nil => exact Or.inr (Or.inl (by simpa using h))
  | cons c a' ih =>
    rw [List.cons_append, List.infix_cons_iff] at h
    rcases h with hpre | hinf
    · have hpre' : x <+: (c :: a') ++ b := by
        rw [List.cons_append]
        exact hpre
      rcases prefix_append_split hpre' with hxa | ⟨t, rfl, htb⟩
      · exact Or.inl hxa.isInfix
      · by_cases ht : t = []
        · subst ht
          exact Or.inl (by simp)
        · exact Or.inr (Or.inr ⟨c :: a', t, rfl, by simp, ht, List.suffix_rfl, htb⟩)
    · rcases ih hinf with hxa | hxb | ⟨x₁, x₂, rfl, h₁, h₂, hs, hp⟩
      · exact Or.inl (List.infix_cons hxa)
      · exact Or.inr (Or.inl hxb)
      · exact Or.inr (Or.inr ⟨x₁, x₂, rfl, h₁, h₂, hs.trans (List.suffix_cons c a'), hp⟩)

/-! ### How `replaceAll` transforms prefixes and infixes -/

/-- Prefix analysis of the output of `replaceAll`: a prefix of the rewritten
text is either a prefix of the original, or the two agree up to the first
match, after which the prefix continues into the replacement. -/

theorem replaceAll_prefix_split (pat rep : Str) (hpat : pat ≠ []) :
    ∀ n u t : Str, ∀ _hn : u.length ≤ n.length,
      t <+: replaceAll pat rep u →
      t <+: u ∨ ∃ j, j < t.length ∧ u.take j = t.take j ∧ pat <+: u.drop j ∧
        t.drop j <+: rep ++ replaceAll pat rep (u.drop (j + pat.length)) := by
  intro n
  induction n with
  | nil =>
    intro u t hn ht
    have hu : u = [] := List.eq_nil_of_length_eq_zero (Nat.le_zero.mp hn)
    subst hu
    rw [replaceAll_nil] at ht
    exact Or.inl (by simpa using ht)
  | cons _ n ih =>
    intro u t hn ht
    by_cases hm : pat <+: u
    · by_cases hte : t = []
      · subst hte; exact Or.inl List.nil_prefix
      · refine Or.inr ⟨0, List.length_pos.mpr hte, by simp, by simp [hm], ?_⟩
        rw [replaceAll_pos pat rep hpat hm] at ht
        simpa using ht
    · cases u with
      | nil =>
        rw [replaceAll_nil] at ht
        exact Or.inl (by simpa using ht)
      | cons c rest =>
        rw [replaceAll_neg pat rep hm] at ht
        rcases List.prefix_cons_iff.mp ht with rfl | ⟨t', rfl, ht'⟩
        · exact Or.inl List.nil_prefix
        · have hrest : rest.length ≤ n.length := by
            simp only [List.length_cons] at hn; omega
          rcases ih rest t' hrest ht' with htr | ⟨j, hj, htake, hpre, hdrop⟩
          · exact Or.inl (List.cons_prefix_cons.mpr ⟨rfl, htr⟩)
          · refine Or.inr ⟨j + 1, by simpa using Nat.succ_lt_succ hj, ?_, ?_, ?_⟩
            · simpa using htake
            · simpa using hpre
            · have : (c :: rest).drop (j + 1 + pat.length) =
                  rest.drop (j + pat.length) := by
                simp [List.drop_succ_cons, Nat.add_right_comm]
              rw [this]
              simpa using hdrop

theorem not_infix_of_not_infix_drop {x u : Str} (n : Nat) (h : ¬ x <:+: u) :
    ¬ x <:+: u.drop n :=
  fun hx => h (hx.trans (List.drop_suffix n u).isInfix)

theorem not_infix_of_not_infix_cons {x : Str} {c : Char} {u : Str}
    (h : ¬ x <:+: c :: u) : ¬ x <:+: u :=
  fun hx => h (List.infix_cons hx)

/-- Core no-reintroduction lemma.  If the target string `x` does not occur
in the replacement `rep`, no nonempty proper prefix of `x` is a suffix of
`rep`, and for every `0 < d < |x|` the strings `x.drop d` and `rep` are
prefix-incomparable, then `replaceAll pat rep` never leaves (or creates) an
occurrence of `x` — provided `x` is the pattern itself, or `x` did not
occur in the input. -/

theorem replaceAll_not_infix (pat rep x : Str)
    (hpat : pat ≠ []) (hx : x ≠ [])
    (hrep : ¬ x <:+: rep)
    (hsuf : ∀ d, 0 < d → d < x.length → ¬ x.take d <:+ rep)
    (hcmp : ∀ d, 0 < d → d < x.length → ¬ x.drop d <+: rep ∧ ¬ rep <+: x.drop d) :
    ∀ n u : Str, u.length ≤ n.length → (x = pat ∨ ¬ x <:+: u) →
      ¬ x <:+: replaceAll pat rep u := by
  intro n
  induction n with
  | nil =>
    intro u hn hu hinf
    have : u = [] := List.eq_nil_of_length_eq_zero (Nat.le_zero.mp hn)
    subst this
    rw [replaceAll_nil] at hinf
    exact hx (List.infix_nil.mp hinf)
  | cons _ n ih =>
    intro u hn hu hinf
    by_cases hm : pat <+: u
    · rw [replaceAll_pos pat rep hpat hm] at hinf
      rcases infix_append_split hinf with h₁ | h₂ | ⟨x₁, x₂, hxeq, hx₁, hx₂, hx₁s, _⟩
      · exact hrep h₁
      · have hlen : (u.drop pat.length).length ≤ n.length := by
          have hp : 0 < pat.length := List.length_pos.mpr hpat
          have hul : 0 < u.length :=
            List.length_pos.mpr (fun h => hpat (List.prefix_nil.mp (h ▸ hm)))
          simp only [List.length_drop]
          simp only [List.length_cons] at hn
          omega
        exact ih _ hlen (hu.imp id (not_infix_of_not_infix_drop _)) h₂
      · have hd : x.take x₁.length = x₁ := by rw [hxeq, List.take_left]
        have h0 : 0 < x₁.length := List.length_pos.mpr hx₁
        have hlt : x₁.length < x.length := by
          rw [hxeq, List.length_append]
          have : 0 < x₂.length := List.length_pos.mpr hx₂
          omega
        refine hsuf x₁.length h0 hlt ?_
        rw [hd]
        exact hx₁s
    · cases u with
      | nil =>
        rw [replaceAll_nil] at hinf
        exact hx (List.infix_nil.mp hinf)
      | cons c rest =>
        rw [replaceAll_neg pat rep hm] at hinf
        have hrest : rest.length ≤ n.length := by
          simp only [List.length_cons] at hn; omega
        rcases List.infix_cons_iff.mp hinf with hpre | hinf'
        · -- `x` is a prefix of `c :: replaceAll pat rep rest`
          obtain ⟨x0, x', rfl⟩ := List.exists_cons_of_ne_nil hx
          obtain ⟨rfl, hx'⟩ := List.cons_prefix_cons.mp hpre
          rcases replaceAll_prefix_split pat rep hpat n rest x' hrest hx' with
            hxr | ⟨j, hj, _, _, hdrop⟩
          · -- then `x` is a prefix of `u` itself: contradiction either way
            have hxu : (x0 :: x') <+: x0 :: rest := List.cons_prefix_cons.mpr ⟨rfl, hxr⟩
            rcases hu with rfl | hni
            · exact hm hxu
            · exact hni hxu.isInfix
          · -- the prefix runs into the replacement: excluded by `hcmp`
            have hjx : (x0 :: x').drop (j + 1) = x'.drop j := by simp
            have h0 : 0 < j + 1 := Nat.succ_pos j
            have hlt : j + 1 < (x0 :: x').length := by
              simp only [List.length_cons]; omega
            rcases prefix_append_split hdrop with hl | ⟨t₂, heq, _⟩
            · exact (hcmp (j + 1) h0 hlt).1 (by rw [hjx]; exact hl)
            · have : rep <+: x'.drop j := heq ▸ List.prefix_append rep t₂
              exact (hcmp (j + 1) h0 hlt).2 (by rw [hjx]; exact this)
        · exact ih rest hrest (hu.imp id not_infix_of_not_infix_cons) hinf'

/-- With the hypotheses of `replaceAll_not_infix` at `x = pat`, the output
of `replaceAll pat rep` contains no occurrence of `pat` at all. -/

theorem replaceAll_pat_not_infix (pat rep : Str)
    (hpat : pat ≠ [])
    (hrep : ¬ pat <:+: rep)
    (hsuf : ∀ d, 0 < d → d < pat.length → ¬ pat.take d <:+ rep)
    (hcmp : ∀ d, 0 < d → d < pat.length → ¬ pat.drop d <+: rep ∧ ¬ rep <+: pat.drop d)
    (u : Str) : ¬ pat <:+: replaceAll pat rep u :=
  replaceAll_not_infix pat rep pat hpat hpat hrep hsuf hcmp u u (le_refl _) (Or.inl rfl)

/-- `replaceAll` is the identity on strings without an occurrence of the
pattern. -/

theorem replaceAll_id_of_not_infix (pat rep : Str) :
    ∀ n u : Str, u.length ≤ n.length → ¬ pat <:+: u → replaceAll pat rep u = u := by
  intro n
  induction n with
  | nil =>
    intro u hn _
    have : u = [] := List.eq_nil_of_length_eq_zero (Nat.le_zero.mp hn)
    subst this
    exact replaceAll_nil pat rep
  | cons _ n ih =>
    intro u hn hni
    cases u with
    | nil => exact replaceAll_nil pat rep
    | cons c rest =>
      have hm : ¬ pat <+: c :: rest := fun h => hni h.isInfix
      rw [replaceAll_neg pat rep hm]
      have hrest : rest.length ≤ n.length := by
        simp only [List.length_cons] at hn; omega
      rw [ih rest hrest (not_infix_of_not_infix_cons hni)]

/-- Under the no-reintroduction hypotheses, `replaceAll pat rep` is
idempotent. -/

theorem replaceAll_idem (pat rep : Str)
    (hpat : pat ≠ [])
    (hrep : ¬ pat <:+: rep)
    (hsuf : ∀ d, 0 < d → d < pat.length → ¬ pat.take d <:+ rep)
    (hcmp : ∀ d, 0 < d → d < pat.length → ¬ pat.drop d <+: rep ∧ ¬ rep <+: pat.drop d)
    (u : Str) :
    replaceAll pat rep (replaceAll pat rep u) = replaceAll pat rep u :=
  replaceAll_id_of_not_infix pat rep _ _ (le_refl _)
    ( replaceAll_pat_not_infix pat rep hpat hrep hsuf hcmp u)

/-- `replaceAll` distributes over an append when no match crosses the
boundary: every match starting inside `a` must be contained in `a`. -/

theorem replaceAll_append_factor (pat rep : Str) (hpat : pat ≠ []) :
    ∀ n a b : Str, a.length ≤ n.length →
      (∀ j, j < a.length → pat <+: (a ++ b).drop j → pat <+: a.drop j) →
      replaceAll pat rep (a ++ b) = replaceAll pat rep a ++ replaceAll pat rep b := by
  intro n
  induction n with
  | nil =>
    intro a b hn _
    have : a = [] := List.eq_nil_of_length_eq_zero (Nat.le_zero.mp hn)
    subst this
    simp [replaceAll_nil]
  | cons _ n ih =>
    intro a b hn hcond
    rcases List.eq_nil_or_concat' a with rfl | ⟨_, _, _⟩
    · simp [replaceAll_nil]
    · have halen : 0 < a.length := by simp [*]
      by_cases hm : pat <+: a ++ b
      · have hma : pat <+: a := by simpa using hcond 0 halen (by simpa using hm)
        obtain ⟨a₂, ha⟩ := hma
        have hp : 0 < pat.length := List.length_pos.mpr hpat
        have hma' : pat <+: a := ⟨a₂, ha⟩
        rw [replaceAll_pos pat rep hpat hm, replaceAll_pos pat rep hpat hma']
        have hd₁ : (a ++ b).drop pat.length = a₂ ++ b := by
          rw [← ha, List.append_assoc, List.drop_left]
        have hd₂ : a.drop pat.length = a₂ := by rw [← ha, List.drop_left]
        rw [hd₁, hd₂, List.append_assoc]
        congr 1
        have hlen : a₂.length ≤ n.length := by
          have h1 : a.length = pat.length + a₂.length := by
            rw [← ha, List.length_append]
          simp only [List.length_cons] at hn
          omega
        refine ih a₂ b hlen ?_
        intro j hj hpre
        have h1 : (a ++ b).drop (pat.length + j) = (a₂ ++ b).drop j := by
          rw [← ha, List.append_assoc, List.drop_append]
        have h2 : a.drop (pat.length + j) = a₂.drop j := by
          rw [← ha, List.drop_append]
        have hjlt : pat.length + j < a.length := by
          have h1 : a.length = pat.length + a₂.length := by
            rw [← ha, List.length_append]
          omega
        have := hcond (pat.length + j) hjlt (by rw [h1]; exact hpre)
        rwa [h2] at this
      · obtain ⟨c, a', rfl⟩ := List.exists_cons_of_ne_nil (List.length_pos.mp halen)
        have hm' : ¬ pat <+: c :: (a' ++ b) := by
          rwa [List.cons_append] at hm
        have hma : ¬ pat <+: c :: a' := fun h => hm (h.trans (List.prefix_append _ _))
        rw [List.cons_append, replaceAll_neg pat rep hm', replaceAll_neg pat rep hma,
          List.cons_append]
        congr 1
        have hlen : a'.length ≤ n.length := by
          simp only [List.length_cons] at hn; omega
        refine ih a' b hlen ?_
        intro j hj hpre
        have := hcond (j + 1) (by simpa using Nat.succ_lt_succ hj)
          (by simpa using hpre)
        simpa using this

/-- If no character of `a` can start a match of `pat`, then `replaceAll`
leaves an `a`-prefix untouched. -/

theorem replaceAll_inert (pat rep : Str) (hpat : pat ≠ [])
    (a : Str) (hhd : ∀ c ∈ a, pat.head? ≠ some c) :
    ∀ t, replaceAll pat rep (a ++ t) = a ++ replaceAll pat rep t := by
  induction a with
  | nil => simp
  | cons c a' ih =>
    intro t
    obtain ⟨p₀, pt, hp⟩ := List.exists_cons_of_ne_nil hpat
    have hm : ¬ pat <+: c :: (a' ++ t) := by
      intro h
      rw [hp] at h
      obtain ⟨h1, _⟩ := List.cons_prefix_cons.mp h
      exact hhd c (by simp) (by simp [hp, h1])
    rw [List.cons_append, replaceAll_neg _ rep hm,
      ih (fun d hd => hhd d (by simp [hd])), List.cons_append]

/-- Two occurrences of a `NoBorder` pattern cannot overlap. -/

theorem noBorder_no_overlap {pat u : Str} (hnb : NoBorder pat)
    (h0 : pat <+: u) {d : Nat} (hd0 : 0 < d) (hdl : d < pat.length)
    (hd : pat <+: u.drop d) : False := by
  have h1 : pat = u.take pat.length := List.prefix_iff_eq_take.mp h0
  have h2 : pat = (u.drop d).take pat.length := List.prefix_iff_eq_take.mp hd
  refine hnb d hd0 hdl ?_
  calc pat.drop d = (u.take pat.length).drop d := by rw [← h1]
    _ = (u.drop d).take (pat.length - d) := by
        rw [List.take_drop, Nat.add_sub_cancel' (Nat.le_of_lt hdl)]
    _ = ((u.drop d).take pat.length).take (pat.length - d) := by
        rw [List.take_take, Nat.min_eq_left (Nat.le_of_lt (Nat.sub_lt_of_pos_le hd0 (Nat.le_of_lt hdl)))]
    _ = pat.take (pat.length - d) := by rw [← h2]

/-- If `pat ++ a` occurs in `u`, no character of `a` can start a match of
`pat`, and `pat` has no border, then `rep ++ a` occurs in the rewritten
string. -/

theorem replaceAll_keeps_tail (pat rep a : Str) (hpat : pat ≠ [])
    (hnb : NoBorder pat) (hhd : ∀ c ∈ a, pat.head? ≠ some c) :
    ∀ n u : Str, u.length ≤ n.length → (pat ++ a) <:+: u →
      (rep ++ a) <:+: replaceAll pat rep u := by
  intro n
  induction n with
  | nil =>
    intro u hn hocc
    have : u = [] := List.eq_nil_of_length_eq_zero (Nat.le_zero.mp hn)
    subst this
    have h0 : pat ++ a = [] := List.infix_nil.mp hocc
    exact absurd (List.append_eq_nil.mp h0).1 hpat
  | cons _ n ih =>
    intro u hn hocc
    obtain ⟨s, t, hst⟩ := hocc
    by_cases hm : pat <+: u
    · rw [replaceAll_pos pat rep hpat hm]
      cases s with
      | nil =>
        have hdl : u.drop pat.length = a ++ t := by
          rw [← hst]
          simp only [List.nil_append, List.append_assoc]
          rw [List.drop_left]
        rw [hdl, replaceAll_inert pat rep hpat a hhd]
        refine List.IsInfix.trans ?_ List.infix_rfl
        rw [← List.append_assoc]
        exact (List.prefix_append (rep ++ a) (replaceAll pat rep t)).isInfix
      | cons s₀ s' =>
        rcases Nat.lt_or_ge (s₀ :: s').length pat.length with hlt | hge
        · exfalso
          have hd : pat <+: u.drop (s₀ :: s').length := by
            have h1 : u.drop (s₀ :: s').length = (pat ++ a) ++ t := by
              rw [← hst, List.append_assoc, List.drop_left]
            rw [h1, List.append_assoc]
            exact List.prefix_append _ _
          exact noBorder_no_overlap hnb hm (by simp) hlt hd
        · have hocc' : (pat ++ a) <:+: u.drop pat.length := by
            have h1 : u.drop pat.length =
                (s₀ :: s').drop pat.length ++ ((pat ++ a) ++ t) := by
              rw [← hst, List.append_assoc, List.drop_append_of_le_length hge]
            exact ⟨(s₀ :: s').drop pat.length, t, by rw [h1, List.append_assoc]⟩
          have hlen : (u.drop pat.length).length ≤ n.length := by
            have hp : 0 < pat.length := List.length_pos.mpr hpat
            have hu : 0 < u.length := by
              rw [← hst]; simp
            simp only [List.length_drop]
            simp only [List.length_cons] at hn
            omega
          exact (ih _ hlen hocc').trans (List.suffix_append rep _).isInfix
    · cases u with
      | nil =>
        have h0 : pat ++ a = [] := List.infix_nil.mp ⟨s, t, hst⟩
        exact absurd (List.append_eq_nil.mp h0).1 hpat
      | cons c rest =>
        rw [replaceAll_neg pat rep hm]
        cases s with
        | nil =>
          exfalso
          apply hm
          rw [← hst]
          simp only [List.nil_append, List.append_assoc]
          exact List.prefix_append _ _
        | cons s₀ s' =>
          have hrest : s' ++ (pat ++ a) ++ t = rest := by
            rw [List.cons_append, List.cons_append] at hst
            injection hst
          have hlen : rest.length ≤ n.length := by
            simp only [List.length_cons] at hn; omega
          exact List.infix_cons (ih rest hlen ⟨s', t, hrest⟩)

theorem firstExt_mem {s e : Str} (h : firstExt s = some e) :
    e ∈ cacheExts ∧ e <+: s := by
  unfold firstExt at h
  refine ⟨List.mem_of_find?_eq_some h, ?_⟩
  have hp := List.find?_some h
  exact List.isPrefixOf_iff_prefix.mp (by simpa using hp)

theorem tryCacheMatch_some {s e after : Str} (h : tryCacheMatch s = some (e, after)) :
    ∃ q rest, firstExt s = some e ∧ s.drop e.length = q :: rest ∧
      (q = '?' ∨ q = '@') ∧ after = rest.dropWhile bustAllowed := by
  unfold tryCacheMatch at h
  split at h
  · exact absurd h (by simp)
  · rename_i e' hf
    split at h
    · exact absurd h (by simp)
    · rename_i q rest hd
      split at h
      · rename_i hq
        have hpair := Option.some.inj h
        have he : e' = e := congrArg Prod.fst hpair
        have ha : rest.dropWhile bustAllowed = after := congrArg Prod.snd hpair
        subst he
        refine ⟨q, rest, hf, hd, ?_, ha.symm⟩
        rcases Bool.or_eq_true_iff.mp hq with h1 | h1
        · exact Or.inl (by simpa using h1)
        · exact Or.inr (by simpa using h1)
      · exact absurd h (by simp)

theorem cacheExts_ne_nil : ∀ e ∈ cacheExts, e ≠ [] := by decide

theorem tryCacheMatch_length {s e after : Str}
    (h : tryCacheMatch s = some (e, after)) :
    after.length + e.length + 1 ≤ s.length ∧ 0 < e.length := by
  obtain ⟨q, rest, hf, hd, _, ha⟩ := tryCacheMatch_some h
  obtain ⟨hmem, hpre⟩ := firstExt_mem hf
  have he : 0 < e.length := List.length_pos.mpr (cacheExts_ne_nil e hmem)
  have h1 : s.length - e.length = rest.length + 1 := by
    have := congrArg List.length hd
    simpa using this
  have h2 : e.length ≤ s.length := hpre.length_le
  have h3 : after.length ≤ rest.length := by
    rw [ha]
    exact (List.dropWhile_suffix bustAllowed).length_le
  exact ⟨by omega, he⟩

theorem cacheBustGo_stable :
    ∀ f₁ f₂ s, s.length ≤ f₁ → s.length ≤ f₂ → cacheBustGo f₁ s = cacheBustGo f₂ s := by
  intro f₁
  induction f₁ with
  | zero =>
    intro f₂ s h₁ _
    have : s = [] := List.eq_nil_of_length_eq_zero (Nat.le_zero.mp h₁)
    subst this
    cases f₂ <;> rfl
  | succ f₁ ih =>
    intro f₂ s h₁ h₂
    cases f₂ with
    | zero =>
      have : s = [] := List.eq_nil_of_length_eq_zero (Nat.le_zero.mp h₂)
      subst this
      rfl
    | succ f₂ =>
      cases s with
      | nil => rfl
      | cons c rest =>
        simp only [cacheBustGo]
        rcases htc : tryCacheMatch (c :: rest) with _ | ⟨e, after⟩
        · have hr : rest.length ≤ f₁ := by simp at h₁; omega
          have hr₂ : rest.length ≤ f₂ := by simp at h₂; omega
          simp only []
          rw [ih f₂ rest hr hr₂]
        · have hl := tryCacheMatch_length htc
          simp only [List.length_cons] at hl h₁ h₂
          have ha : after.length ≤ f₁ := by omega
          have ha₂ : after.length ≤ f₂ := by omega
          simp only []
          rw [ih f₂ after ha ha₂]

theorem cacheBust_nil : cacheBust [] = [] := rfl

theorem cacheBust_match {c : Char} {rest e after : Str}
    (h : tryCacheMatch (c :: rest) = some (e, after)) :
    cacheBust (c :: rest) = e ++ cacheBust after := by
  simp only [cacheBust, List.length_cons, cacheBustGo, h]
  congr 1
  apply cacheBustGo_stable
  · have := tryCacheMatch_length h
    simp only [List.length_cons] at this ⊢
    omega
  · exact le_refl _

theorem cacheBust_nomatch {c : Char} {rest : Str}
    (h : tryCacheMatch (c :: rest) = none) :
    cacheBust (c :: rest) = c :: cacheBust rest := by
  simp only [cacheBust, List.length_cons, cacheBustGo, h]

theorem greedyScan_length (needle : Str) (cont : Str → Option Str)
    (hcont : ∀ t r, cont t = some r → r.length ≤ t.length) :
    ∀ k s r, greedyScan needle cont k s = some r →
      r.length + needle.length ≤ s.length := by
  intro k
  induction k with
  | zero =>
    intro s r h
    simp only [greedyScan] at h
    split at h
    · rename_i hpre
      have h1 := hcont _ _ h
      have h2 := (List.isPrefixOf_iff_prefix.mp hpre).length_le
      simp only [List.length_drop] at h1
      omega
    · exact absurd h (by simp)
  | succ k ih =>
    intro s r h
    simp only [greedyScan] at h
    split at h
    · rename_i hks
      rcases hc : cont ((s.drop (k + 1)).drop needle.length) with _ | r'
      · rw [hc] at h
        exact ih s r h
      · rw [hc] at h
        have hr : r = r' := by
          have := h
          simp only [] at this
          exact (Option.some.inj this).symm
        subst hr
        have h1 := hcont _ _ hc
        have h2 := (List.isPrefixOf_iff_prefix.mp hks.2).length_le
        simp only [List.length_drop] at h1 h2
        omega
    · exact ih s r h

theorem portalTry_length {s after : Str} (h : portalTry s = some after) :
    after.length + 17 ≤ s.length := by
  unfold portalTry at h
  split at h
  · rename_i hpre
    have hc : ∀ t r, greedyScan portalClose some t.length t = some r →
        r.length ≤ t.length := by
      intro t r hg
      have := greedyScan_length portalClose some (fun t r hr => by
        rw [Option.some.inj hr]) t.length t r hg
      simp only [portalClose, str] at this
      omega
    have h1 := greedyScan_length portalNeedle _ hc _ _ _ h
    have h2 := (List.isPrefixOf_iff_prefix.mp hpre).length_le
    have hlt : after.length + portalNeedle.length ≤ s.length - portalOpen.length := by
      simpa using h1
    have hn : portalNeedle.length = 12 := rfl
    have ho : portalOpen.length = 7 := rfl
    omega
  · exact absurd h (by simp)

theorem portalRemoveGo_stable :
    ∀ f₁ f₂ s, s.length ≤ f₁ → s.length ≤ f₂ →
      portalRemoveGo f₁ s = portalRemoveGo f₂ s := by
  intro f₁
  induction f₁ with
  | zero =>
    intro f₂ s h₁ _
    have : s = [] := List.eq_nil_of_length_eq_zero (Nat.le_zero.mp h₁)
    subst this
    cases f₂ <;> rfl
  | succ f₁ ih =>
    intro f₂ s h₁ h₂
    cases f₂ with
    | zero =>
      have : s = [] := List.eq_nil_of_length_eq_zero (Nat.le_zero.mp h₂)
      subst this
      rfl
    | succ f₂ =>
      cases s with
      | nil => rfl
      | cons c rest =>
        simp only [portalRemoveGo]
        rcases htc : portalTry (c :: rest) with _ | after
        · have hr : rest.length ≤ f₁ := by simp at h₁; omega
          have hr₂ : rest.length ≤ f₂ := by simp at h₂; omega
          simp only []
          rw [ih f₂ rest hr hr₂]
        · have hl := portalTry_length htc
          simp only [List.length_cons] at hl h₁ h₂
          have ha : after.length ≤ f₁ := by omega
          have ha₂ : after.length ≤ f₂ := by omega
          simp only []
          rw [ih f₂ after ha ha₂]

theorem portalRemove_nil : portalRemove [] = [] := rfl

theorem portalRemove_match {c : Char} {rest after : Str}
    (h : portalTry (c :: rest) = some after) :
    portalRemove (c :: rest) = portalRemove after := by
  simp only [portalRemove, List.length_cons, portalRemoveGo, h]
  apply portalRemoveGo_stable
  · have := portalTry_length h
    simp only [List.length_cons] at this
    omega
  · exact le_refl _

theorem portalRemove_nomatch {c : Char} {rest : Str}
    (h : portalTry (c :: rest) = none) :
    portalRemove (c :: rest) = c :: portalRemove rest := by
  simp only [portalRemove, List.length_cons, portalRemoveGo, h]

theorem xmlStyTry_length {s after : Str} (h : xmlStyTry s = some after) :
    after.length + 18 ≤ s.length := by
  unfold xmlStyTry at h
  split at h
  · rename_i hpre
    split at h
    · rename_i q g rest hdw
      split at h
      · have hr : rest = after := Option.some.inj h
        subst hr
        have h1 : (q :: g :: rest).length ≤ (s.drop xmlStyOpen.length).length :=
          List.IsSuffix.length_le (hdw ▸ List.dropWhile_suffix _)
        have h2 := (List.isPrefixOf_iff_prefix.mp hpre).length_le
        simp only [List.length_cons, List.length_drop] at h1
        have ho : xmlStyOpen.length = 16 := rfl
        omega
      · exact absurd h (by simp)
    · exact absurd h (by simp)
  · exact absurd h (by simp)

theorem xmlStyRemoveGo_stable :
    ∀ f₁ f₂ s, s.length ≤ f₁ → s.length ≤ f₂ →
      xmlStyRemoveGo f₁ s = xmlStyRemoveGo f₂ s := by
  intro f₁
  induction f₁ with
  | zero =>
    intro f₂ s h₁ _
    have : s = [] := List.eq_nil_of_length_eq_zero (Nat.le_zero.mp h₁)
    subst this
    cases f₂ <;> rfl
  | succ f₁ ih =>
    intro f₂ s h₁ h₂
    cases f₂ with
    | zero =>
      have : s = [] := List.eq_nil_of_length_eq_zero (Nat.le_zero.mp h₂)
      subst this
      rfl
    | succ f₂ =>
      cases s with
      | nil => rfl
      | cons c rest =>
        simp only [xmlStyRemoveGo]
        rcases htc : xmlStyTry (c :: rest) with _ | after
        · have hr : rest.length ≤ f₁ := by simp at h₁; omega
          have hr₂ : rest.length ≤ f₂ := by simp at h₂; omega
          simp only []
          rw [ih f₂ rest hr hr₂]
        · have hl := xmlStyTry_length htc
          simp only [List.length_cons] at hl h₁ h₂
          have ha : after.length ≤ f₁ := by omega
          have ha₂ : after.length ≤ f₂ := by omega
          simp only []
          rw [ih f₂ after ha ha₂]

/-! ### Instantiated facts for the concrete origin strings -/

theorem originSub_no_src (s : Str) : ¬ srcOrigin <:+: originSub s := by
  have hsuf : ∀ d < srcOrigin.length, 0 < d → ¬ srcOrigin.take d <:+ dstOrigin := by
    decide
  have hcmp : ∀ d < srcOrigin.length, 0 < d →
      ¬ srcOrigin.drop d <+: dstOrigin ∧ ¬ dstOrigin <+: srcOrigin.drop d := by
    decide
  exact replaceAll_pat_not_infix srcOrigin dstOrigin (by decide) (by decide)
    (fun d h0 hlt => hsuf d hlt h0) (fun d h0 hlt => hcmp d hlt h0) s

/-- The origin-substitution pass is idempotent: its output contains no
match for it to rewrite. -/

theorem originSub_idem (s : Str) : originSub (originSub s) = originSub s :=
  replaceAll_id_of_not_infix srcOrigin dstOrigin _ _ (le_refl _) (originSub_no_src s)

theorem protoSub_no_proto (s : Str) : ¬ protoSrc <:+: protoSub s := by
  have hsuf : ∀ d < protoSrc.length, 0 < d → ¬ protoSrc.take d <:+ protoDst := by
    decide
  have hcmp : ∀ d < protoSrc.length, 0 < d →
      ¬ protoSrc.drop d <+: protoDst ∧ ¬ protoDst <+: protoSrc.drop d := by
    decide
  exact replaceAll_pat_not_infix protoSrc protoDst (by decide) (by decide)
    (fun d h0 hlt => hsuf d hlt h0) (fun d h0 hlt => hcmp d hlt h0) s

theorem protoSub_idem (s : Str) : protoSub (protoSub s) = protoSub s :=
  replaceAll_id_of_not_infix protoSrc protoDst _ _ (le_refl _) (protoSub_no_proto s)

/-- The protocol-relative rewrite cannot reintroduce the source origin. -/

theorem protoSub_no_src {s : Str} (hs : ¬ srcOrigin <:+: s) :
    ¬ srcOrigin <:+: protoSub s := by
  have hsuf : ∀ d < srcOrigin.length, 0 < d → ¬ srcOrigin.take d <:+ protoDst := by
    decide
  have hcmp : ∀ d < srcOrigin.length, 0 < d →
      ¬ srcOrigin.drop d <+: protoDst ∧ ¬ protoDst <+: srcOrigin.drop d := by
    decide
  exact replaceAll_not_infix protoSrc protoDst srcOrigin (by decide) (by decide)
    (by decide) (fun d h0 hlt => hsuf d hlt h0) (fun d h0 hlt => hcmp d hlt h0)
    s s (le_refl _) (Or.inr hs)

/-- The two origin passes of stage 5a contain no source origin in their
output. -/

theorem xmlOriginPasses_no_src (s : Str) :
    ¬ srcOrigin <:+: protoSub (originSub s) :=
  protoSub_no_src (originSub_no_src s)

/-- The pair of origin passes of stage 5a is idempotent. -/

theorem xmlOriginPasses_idem (s : Str) :
    protoSub (originSub (protoSub (originSub s))) = protoSub (originSub s) := by
  have h1 : originSub (protoSub (originSub s)) = protoSub (originSub s) :=
    replaceAll_id_of_not_infix srcOrigin dstOrigin _ _ (le_refl _)
      (xmlOriginPasses_no_src s)
  rw [h1]
  exact protoSub_idem (originSub s)

theorem srcOrigin_noBorder : NoBorder srcOrigin := by
  have h : ∀ d < srcOrigin.length, 0 < d →
      srcOrigin.drop d ≠ srcOrigin.take (srcOrigin.length - d) := by decide
  exact fun d h0 hlt => h d hlt h0

/-- A file containing `http://localhost:2368/about` contains
`https://blog.example.com/about` after the origin substitution. -/

theorem originSub_keeps_about {s : Str} (h : (srcOrigin ++ aboutPath) <:+: s) :
    (dstOrigin ++ aboutPath) <:+: originSub s :=
  replaceAll_keeps_tail srcOrigin dstOrigin aboutPath (by decide)
    srcOrigin_noBorder (by decide) s s (le_refl _) h

/-! ### C4 and C5: the asset auditor -/

/-- C4: for the responsive-image attribute value
`"/content/images/a.png 600w, /content/images/b.png?v=2 1000w"` the asset
auditor extracts exactly the candidates `/content/images/a.png` and
`/content/images/b.png`: candidates are split on commas, only the URL
component is kept, the size descriptor is discarded, and query parameters
are stripped. -/
theorem c4_srcset_candidates :
    processAttrVal
        (str "/content/images/a.png 600w, /content/images/b.png?v=2 1000w") =
      [str "/content/images/a.png", str "/content/images/b.png"] ∧
    imagesOfContent
        (str "<img srcset=\"/content/images/a.png 600w, /content/images/b.png?v=2 1000w\">") =
      [str "/content/images/a.png", str "/content/images/b.png"] := by
  constructor
  · decide
  · decide

/-- C5: on an output directory where every discovered asset already exists
at its local destination, the asset audit downloads nothing. -/
theorem c5_audit_no_fetch (files : List (Str × Str))
    (h : ∀ u ∈ foundImages files, existsFile files (joinDist (stripHost u))) :
    auditDownloads files = [] := by
  unfold auditDownloads
  rw [List.filter_eq_nil_iff]
  intro u hu
  simp [h u hu]

/-- Witness for C5 on a one-page directory whose single image is present. -/
theorem c5_audit_no_fetch_witness :
    auditDownloads
      [(str "dist/index.html", str "<img src=\"/content/images/a.png\">"),
       (str "dist/content/images/a.png", str "binary")] = [] :=
  c5_audit_no_fetch _ (by decide)

/-! ### Lemmas about the file-map operations -/

theorem lookup_removeFile_self (fs : List (Str × Str)) (p : Str) :
    lookupFile (removeFile fs p) p = none := by
  simp only [removeFile, lookupFile]
  induction fs with
  | nil => rfl
  | cons f fs ih =>
    obtain ⟨k, v⟩ := f
    by_cases h : k = p
    · simpa [List.filter_cons, h] using ih
    · simpa [List.filter_cons, beq_false_of_ne h, List.lookup_cons,
        beq_false_of_ne (Ne.symm h)] using ih

theorem lookup_removeFile_ne (fs : List (Str × Str)) {p q : Str} (h : p ≠ q) :
    lookupFile (removeFile fs p) q = lookupFile fs q := by
  simp only [removeFile, lookupFile]
  induction fs with
  | nil => rfl
  | cons f fs ih =>
    obtain ⟨k, v⟩ := f
    by_cases hk : k = p
    · subst hk
      simp only [List.filter_cons, beq_self_eq_true, Bool.not_true,
        Bool.false_eq_true, if_false, List.lookup_cons,
        beq_false_of_ne (Ne.symm h)]
      exact ih
    · by_cases hq : q = k
      · subst hq
        simp [List.filter_cons, beq_false_of_ne hk, List.lookup_cons]
      · simpa [List.filter_cons, beq_false_of_ne hk, List.lookup_cons,
          beq_false_of_ne hq] using ih

theorem lookup_setFile_self (fs : List (Str × Str)) (p c : Str) :
    lookupFile (setFile fs p c) p = some c := by
  simp [setFile, lookupFile, List.lookup_cons]

theorem lookup_setFile_ne (fs : List (Str × Str)) (c : Str) {p q : Str}
    (h : p ≠ q) :
    lookupFile (setFile fs p c) q = lookupFile fs q := by
  simp only [setFile, lookupFile, List.lookup_cons, beq_false_of_ne (Ne.symm h)]
  exact lookup_removeFile_ne fs h

/-! ### The sitemap fetch loop -/

theorem sitemapFold_not_mem (oracle : Str → Fetch) :
    ∀ (ms : List Str) (st : List (Str × Str) × Nat) (p : Str), p ∉ ms →
      lookupFile (ms.foldl (sitemapStep oracle) st).1 p = lookupFile st.1 p := by
  intro ms
  induction ms with
  | nil => intro st p _; rfl
  | cons m ms ih =>
    intro st p hp
    have hpm : p ≠ m := fun h => hp (h ▸ List.mem_cons_self m ms)
    have hp' : p ∉ ms := fun h => hp (List.mem_cons_of_mem m h)
    simp only [List.foldl_cons]
    rw [ih _ p hp']
    cases hor : oracle m with
    | success body =>
      by_cases hb : 0 < body.length
      · simp only [sitemapStep, hor, if_pos hb]
        exact lookup_setFile_ne st.1 body (Ne.symm hpm)
      · simp only [sitemapStep, hor, if_neg hb]
        exact lookup_removeFile_ne st.1 (Ne.symm hpm)
    | failure =>
      simp only [sitemapStep, hor]
      exact lookup_removeFile_ne st.1 (Ne.symm hpm)

theorem sitemapFold_mem (oracle : Str → Fetch) :
    ∀ (ms : List Str) (st : List (Str × Str) × Nat), ms.Nodup → ∀ m ∈ ms,
      lookupFile (ms.foldl (sitemapStep oracle) st).1 m =
        sitemapExpected oracle m := by
  intro ms
  induction ms with
  | nil => intro st _ m hm; exact absurd hm (List.not_mem_nil m)
  | cons m₀ ms ih =>
    intro st hnd m hm
    simp only [List.foldl_cons]
    rcases List.mem_cons.mp hm with rfl | hm'
    · have hnotin : m ∉ ms := (List.nodup_cons.mp hnd).1
      rw [sitemapFold_not_mem oracle ms _ m hnotin]
      cases hor : oracle m with
      | success body =>
        by_cases hb : 0 < body.length
        · simp [sitemapStep, sitemapExpected, hor, hb, lookup_setFile_self]
        · simp [sitemapStep, sitemapExpected, hor, hb, lookup_removeFile_self]
      | failure => simp [sitemapStep, sitemapExpected, hor, lookup_removeFile_self]
    · exact ih _ (List.nodup_cons.mp hnd).2 m hm'

theorem sitemapFold_count (oracle : Str → Fetch) :
    ∀ (ms : List Str) (st : List (Str × Str) × Nat),
      (ms.foldl (sitemapStep oracle) st).2 =
        st.2 + (ms.filter (fun m => (sitemapExpected oracle m).isSome)).length := by
  intro ms
  induction ms with
  | nil => intro st; simp
  | cons m ms ih =>
    intro st
    simp only [List.foldl_cons, List.filter_cons]
    rw [ih]
    cases hor : oracle m with
    | success body =>
      by_cases hb : 0 < body.length
      · simp only [sitemapStep, sitemapExpected, hor, if_pos hb, Option.isSome_some,
          if_true, List.length_cons]
        omega
      · simp only [sitemapStep, sitemapExpected, hor, if_neg hb, Option.isSome_none,
          Bool.false_eq_true, if_false]
    | failure =>
      simp only [sitemapStep, sitemapExpected, hor, Option.isSome_none,
        Bool.false_eq_true, if_false]

/-! ### C7: missing supplementary resources -/

/-- C7: a supplementary resource that is missing at the source origin
(transport failure for the best-effort page fetches; failure or an empty
body for the sitemap fetches, whose empty downloads are deleted) leaves no
file at its target path, and the stage runs to completion for every
oracle. -/
theorem c7_missing_supplementary (oracle : Str → Fetch) (init : List (Str × Str)) :
    (∀ p ∈ extraPages, oracle p = Fetch.failure →
      lookupFile init (p ++ str "index.html") = none →
      lookupFile (supplementaryStage oracle init).1 (p ++ str "index.html") = none) ∧
    (∀ m ∈ sitemapNames, (oracle m = Fetch.failure ∨ oracle m = Fetch.success []) →
      lookupFile (supplementaryStage oracle init).1 m = none) := by
  constructor
  · intro p hp hfail hinit
    unfold supplementaryStage sitemapRun
    have hnot : (p ++ str "index.html") ∉ sitemapNames := by
      rcases List.mem_cons.mp hp with rfl | hp'
      · decide
      · rcases List.mem_cons.mp hp' with rfl | hp''
        · decide
        · exact absurd hp'' (List.not_mem_nil p)
    rw [sitemapFold_not_mem oracle sitemapNames _ _ hnot]
    simp only [extraPages, List.foldl_cons, List.foldl_nil]
    rcases List.mem_cons.mp hp with rfl | hp'
    · -- the 404 page
      have h0 : pageFetch oracle init (str "404/") = init := by
        simp [pageFetch, hfail]
      rw [h0]
      cases hor : oracle (str "rss/") with
      | success body =>
        simp only [pageFetch, hor]
        rw [lookup_setFile_ne init body (by decide)]
        exact hinit
      | failure => simp only [pageFetch, hor]; exact hinit
    · rcases List.mem_cons.mp hp' with rfl | hp''
      · -- the rss feed
        have h1 : lookupFile (pageFetch oracle init (str "404/"))
            (str "rss/" ++ str "index.html") = none := by
          cases hor : oracle (str "404/") with
          | success body =>
            simp only [pageFetch, hor]
            rw [lookup_setFile_ne init body (by decide)]
            exact hinit
          | failure => simp only [pageFetch, hor]; exact hinit
        simp only [pageFetch, hfail]
        exact h1
      · exact absurd hp'' (List.not_mem_nil p)
  · intro m hm hcase
    unfold supplementaryStage sitemapRun
    rw [sitemapFold_mem oracle sitemapNames _ (by decide) m hm]
    rcases hcase with h | h <;> simp [sitemapExpected, h]

/-- Witness for C7: a concrete oracle where the 404 page fetch fails and
the `sitemap-pages.xml` fetch returns an empty body. -/
theorem c7_missing_supplementary_witness :
    lookupFile (supplementaryStage oracleW []).1 (str "404/" ++ str "index.html") = none ∧
    lookupFile (supplementaryStage oracleW []).1 (str "sitemap-pages.xml") = none := by
  constructor
  · exact (c7_missing_supplementary oracleW []).1 (str "404/") (by decide)
      (by decide) (by decide)
  · exact (c7_missing_supplementary oracleW []).2 (str "sitemap-pages.xml")
      (by decide) (Or.inr (by decide))

/-! ### C10: the sitemap loop invariant -/

/-- C10: after the sitemap loop, every sitemap path holds a non-empty file
or none at all, and the success counter equals the number of sitemap paths
holding a file. -/
theorem c10_sitemap_invariant (oracle : Str → Fetch) (init : List (Str × Str)) :
    (∀ m ∈ sitemapNames, ∀ c, lookupFile (sitemapRun oracle init).1 m = some c →
      0 < c.length) ∧
    (sitemapRun oracle init).2 =
      (sitemapNames.filter
        (fun m => (lookupFile (sitemapRun oracle init).1 m).isSome)).length := by
  have hlk : ∀ m ∈ sitemapNames,
      lookupFile (sitemapRun oracle init).1 m = sitemapExpected oracle m :=
    fun m hm => sitemapFold_mem oracle sitemapNames (init, 0) (by decide) m hm
  constructor
  · intro m hm c hc
    rw [hlk m hm] at hc
    unfold sitemapExpected at hc
    cases hor : oracle m with
    | success body =>
      rw [hor] at hc
      simp only [] at hc
      by_cases hb : 0 < body.length
      · rw [if_pos hb] at hc
        have hbc : body = c := Option.some.inj hc
        exact hbc ▸ hb
      · rw [if_neg hb] at hc
        exact absurd hc (by simp)
    | failure =>
      rw [hor] at hc
      simp only [] at hc
      exact absurd hc (by simp)
  · have hc := sitemapFold_count oracle sitemapNames (init, 0)
    unfold sitemapRun
    rw [hc]
    simp only [Nat.zero_add]
    congr 1
    apply List.filter_congr
    intro m hm
    have hl := hlk m hm
    unfold sitemapRun at hl
    rw [hl]

/-- Witness for C10 on a concrete oracle and an empty initial state. -/
theorem c10_sitemap_invariant_witness :
    0 < (str "ok").length ∧
    (sitemapRun oracleW []).2 =
      (sitemapNames.filter
        (fun m => (lookupFile (sitemapRun oracleW []).1 m).isSome)).length := by
  constructor
  · exact (c10_sitemap_invariant oracleW []).1 (str "sitemap.xml") (by decide)
      (str "ok") (by decide)
  · exact (c10_sitemap_invariant oracleW []).2

/-! ### C8: the structural fixer -/

theorem mem_removeFile {fs : List (Str × Str)} {f : Str × Str} {p : Str} :
    f ∈ removeFile fs p ↔ f ∈ fs ∧ f.1 ≠ p := by
  simp [removeFile, List.mem_filter]

theorem lookup_filter_not_under (fs : List (Str × Str)) {q : Str}
    (hq : ¬ isUnder404 q) :
    lookupFile (fs.filter (fun f => !isUnder404 f.1)) q = lookupFile fs q := by
  induction fs with
  | nil => rfl
  | cons f fs ih =>
    obtain ⟨k, v⟩ := f
    by_cases hk : isUnder404 k
    · have hne : q ≠ k := fun h => hq (h ▸ hk)
      simp only [List.filter_cons, hk, Bool.not_true, Bool.false_eq_true, if_false,
        lookupFile, List.lookup_cons, beq_false_of_ne hne]
      exact ih
    · by_cases hqk : q = k
      · subst hqk
        simp [List.filter_cons, hk, lookupFile, List.lookup_cons]
      · simp only [List.filter_cons]
        rw [if_pos (by simp [hk])]
        simp only [lookupFile, List.lookup_cons, beq_false_of_ne hqk]
        exact ih

/-- Statement of claim C8 refuted below: the source directory need not be
empty when it is removed — `fs.removeSync` deletes it recursively with
anything still inside. -/
theorem c8_counterexample : ¬ C8Statement := by
  intro h
  have h2 := ((h [(moveSrc, str "a"), (str "404/extra.css", str "b")]).2 (str "a")
    (by decide)).2 (str "404/extra.css", str "b") (by decide) (by decide)
  exact h2 (by decide)

/-- C8 amended: the move executes only when the source exists; it
overwrites any pre-existing destination; and it removes the source
directory recursively together with anything still inside it (so no file
under `404/` survives), leaving every other file in place. -/
theorem c8_amended : ∀ fs : List (Str × Str),
    (lookupFile fs moveSrc = none → structuralFix fs = fs) ∧
    (∀ c, lookupFile fs moveSrc = some c →
      lookupFile (structuralFix fs) moveDst = some c ∧
      (∀ f ∈ structuralFix fs, ¬ isUnder404 f.1) ∧
      (∀ f ∈ fs, f.1 ≠ moveSrc → f.1 ≠ moveDst → ¬ isUnder404 f.1 →
        f ∈ structuralFix fs)) := by
  intro fs
  constructor
  · intro h
    unfold structuralFix
    rw [h]
  · intro c hc
    unfold structuralFix
    rw [hc]
    refine ⟨?_, ?_, ?_⟩
    · rw [lookup_filter_not_under _ (by decide)]
      exact lookup_setFile_self _ _ _
    · intro f hf
      have := List.of_mem_filter hf
      simpa using this
    · intro f hf h1 h2 h3
      apply List.mem_filter.mpr
      refine ⟨?_, by simpa using h3⟩
      simp only [setFile]
      apply List.mem_cons_of_mem
      exact mem_removeFile.mpr ⟨mem_removeFile.mpr ⟨hf, h1⟩, h2⟩

/-- Witness for C8 amended on a directory with an extra file inside
`404/` and an unrelated file. -/
theorem c8_amended_witness :
    structuralFix [] = [] ∧
    (lookupFile (structuralFix
        [(moveSrc, str "a"), (str "404/extra.css", str "b"),
         (str "keep.css", str "k")]) moveDst = some (str "a") ∧
      (str "keep.css", str "k") ∈ structuralFix
        [(moveSrc, str "a"), (str "404/extra.css", str "b"),
         (str "keep.css", str "k")]) := by
  refine ⟨(c8_amended []).1 (by decide), ?_, ?_⟩
  · exact ((c8_amended _).2 (str "a") (by decide)).1
  · exact ((c8_amended _).2 (str "a") (by decide)).2.2
      (str "keep.css", str "k") (by decide) (by decide) (by decide) (by decide)

/-! ### C6: the HTML cleanup stage (modelled from the spec) -/

mutual

theorem removeSel_of_countZero (sel : Sel) :
    ∀ d : Dom, countSel sel d = 0 → removeSel sel d = d
  | Dom.txt _, _ => rfl
  | Dom.el t c i ch, h => by
    have hch : countSelList sel ch = 0 := by
      simp only [countSel] at h
      omega
    simp only [removeSel]
    rw [removeSelList_of_countZero sel ch hch]

theorem removeSelList_of_countZero (sel : Sel) :
    ∀ l : List Dom, countSelList sel l = 0 → removeSelList sel l = l
  | [], _ => rfl
  | d :: ds, h => by
    have h1 : countSel sel d = 0 ∧ countSelList sel ds = 0 := by
      simp only [countSelList] at h
      omega
    have hm : selMatches sel d = false := by
      cases d with
      | txt s => cases sel <;> rfl
      | el t c i ch =>
        by_contra hm
        have : countSel sel (Dom.el t c i ch) ≠ 0 := by
          simp only [countSel, Bool.not_eq_false] at hm ⊢
          rw [if_pos hm]
          omega
        exact this h1.1
    simp only [removeSelList, hm, Bool.false_eq_true, if_false]
    rw [removeSel_of_countZero sel d h1.1, removeSelList_of_countZero sel ds h1.2]
    simp

end

/-- C6 (modelled from the spec; the `elementsToRemove` cleanup stage is
documented in the README but absent from the `deploy.js` revisions under
`src/`): an invalid selector is skipped without aborting the run; a
selector matching zero elements leaves the page unchanged; hence a
zero-match selector inserted anywhere in the configured list changes
nothing beyond the removals of the other selectors. -/
theorem c6_cleanup_selectors :
    (∀ (sel : Sel) (p : Dom), selValid sel = false → applySel p sel = p) ∧
    (∀ (sel : Sel) (p : Dom), countSel sel p = 0 → applySel p sel = p) ∧
    (∀ (l1 l2 : List Sel) (sel : Sel) (p : Dom),
      countSel sel (cleanupPage l1 p) = 0 →
      cleanupPage (l1 ++ sel :: l2) p = cleanupPage (l1 ++ l2) p) := by
  have happ : ∀ (sel : Sel) (p : Dom), countSel sel p = 0 → applySel p sel = p := by
    intro sel p h
    unfold applySel
    by_cases hv : selValid sel
    · rw [if_pos hv]
      exact removeSel_of_countZero sel p h
    · rw [if_neg hv]
  refine ⟨?_, happ, ?_⟩
  · intro sel p h
    simp [applySel, h]
  · intro l1 l2 sel p h
    unfold cleanupPage
    rw [List.foldl_append, List.foldl_append, List.foldl_cons]
    rw [happ sel (List.foldl applySel p l1) h]

/-- Witness for C6 on a concrete page: an invalid selector is a no-op, a
class selector matching nothing is a no-op, and inserting it after a tag
selector changes nothing. -/
theorem c6_cleanup_selectors_witness :
    applySel pageW (Sel.invalidSel "li.x[") = pageW ∧
    applySel pageW (Sel.clsSel "subscribe-overlay") = pageW ∧
    cleanupPage [Sel.tagSel "nav", Sel.clsSel "subscribe-overlay"] pageW =
      cleanupPage [Sel.tagSel "nav"] pageW := by
  refine ⟨c6_cleanup_selectors.1 (Sel.invalidSel "li.x[") pageW rfl,
    c6_cleanup_selectors.2.1 (Sel.clsSel "subscribe-overlay") pageW (by decide), ?_⟩
  have h := c6_cleanup_selectors.2.2 [Sel.tagSel "nav"] []
    (Sel.clsSel "subscribe-overlay") pageW (by decide)
  simpa using h

/-! ### C3: filename sanitation -/

theorem cleanName_clean (p : Str) : hasDisallowed (cleanName p) = false := by
  simp only [hasDisallowed, cleanName, List.any_eq_false]
  intro c hc
  have := List.mem_takeWhile_imp hc
  simpa using this

theorem prefix_takeWhile {q f : Str} {pr : Char → Bool} (h : q <+: f)
    (hq : ∀ c ∈ q, pr c = true) : q <+: f.takeWhile pr := by
  induction q generalizing f with
  | nil => exact List.nil_prefix
  | cons c q' ih =>
    cases f with
    | nil => exact absurd h (by simp)
    | cons a f' =>
      obtain ⟨rfl, h'⟩ := List.cons_prefix_cons.mp h
      rw [List.takeWhile_cons_of_pos (hq c (by simp))]
      exact List.cons_prefix_cons.mpr ⟨rfl, ih h' (fun d hd => hq d (by simp [hd]))⟩

theorem takeWhile_next {l : Str} {pr : Char → Bool} {c : Char}
    (h : (l.takeWhile pr) ++ [c] <+: l) : pr c = false := by
  induction l with
  | nil => simp at h
  | cons a l' ih =>
    by_cases hp : pr a
    · rw [List.takeWhile_cons_of_pos hp, List.cons_append] at h
      exact ih (List.cons_prefix_cons.mp h).2
    · rw [List.takeWhile_cons_of_neg hp, List.nil_append] at h
      obtain ⟨rfl, _⟩ := List.cons_prefix_cons.mp h
      exact Bool.not_eq_true _ ▸ by simpa using hp

theorem existsEntry_iff {fs : List Str} {p : Str} :
    existsEntry fs p = true ↔ ∃ g ∈ fs, g = p ∨ (p ++ [slash]) <+: g := by
  simp [existsEntry, List.any_eq_true, List.isPrefixOf_iff_prefix]

theorem sanitizeStep_nodup {st : List Str} {f : Str} (h : st.Nodup) :
    (sanitizeStep st f).Nodup := by
  unfold sanitizeStep
  by_cases hd : hasDisallowed f
  · rw [if_pos hd]
    by_cases hex : existsEntry st (cleanName f)
    · rw [if_pos hex]
      exact h.erase f
    · rw [if_neg hex]
      refine List.Nodup.cons ?_ (h.erase f)
      intro hmem
      have : cleanName f ∈ st := List.mem_of_mem_erase hmem
      exact hex (existsEntry_iff.mpr ⟨cleanName f, this, Or.inl rfl⟩)
  · rw [if_neg hd]
    exact h

theorem sanitizeStep_mem_preserved {st : List Str} {f g : Str}
    (hg : g ∈ st) (hne : g ≠ f) : g ∈ sanitizeStep st f := by
  unfold sanitizeStep
  by_cases hd : hasDisallowed f
  · rw [if_pos hd]
    by_cases hex : existsEntry st (cleanName f)
    · rw [if_pos hex]
      exact (List.mem_erase_of_ne hne).mpr hg
    · rw [if_neg hex]
      exact List.mem_cons_of_mem _ ((List.mem_erase_of_ne hne).mpr hg)
  · rw [if_neg hd]
    exact hg

theorem slash_not_disallowed : disallowed slash = false := rfl

theorem cleanName_ne_self {f : Str} (hd : hasDisallowed f = true) :
    cleanName f ≠ f := by
  intro h
  rw [← h, cleanName_clean] at hd
  exact Bool.false_ne_true hd

theorem cleanName_slash_not_prefix {f : Str} :
    ¬ (cleanName f ++ [slash]) <+: f := by
  intro h
  have := @takeWhile_next f (fun c => !disallowed c) slash h
  simp [slash_not_disallowed] at this

theorem sanitizeStep_preserves_exists {st : List Str} {f p : Str}
    (hp : hasDisallowed p = false) (h : existsEntry st p = true) :
    existsEntry (sanitizeStep st f) p = true := by
  by_cases hd : hasDisallowed f
  case neg =>
    unfold sanitizeStep
    rw [if_neg hd]
    exact h
  case pos =>
  obtain ⟨w, hw, hwp⟩ := existsEntry_iff.mp h
  by_cases hwf : w = f
  · subst hwf
    rcases hwp with rfl | hpre
    · exact absurd hd (by simp [hp])
    · have hclean : (p ++ [slash]) <+: cleanName w := by
        refine prefix_takeWhile hpre ?_
        intro c hc
        rcases List.mem_append.mp hc with hcp | hcs
        · have : ∀ c ∈ p, disallowed c = false := by
            simpa [hasDisallowed, List.any_eq_false] using hp
          simp [this c hcp]
        · have : c = slash := by simpa using hcs
          simp [this, slash_not_disallowed]
      unfold sanitizeStep
      rw [if_pos hd]
      by_cases hex : existsEntry st (cleanName w)
      · rw [if_pos hex]
        obtain ⟨w', hw', hwp'⟩ := existsEntry_iff.mp hex
        have hw'f : w' ≠ w := by
          rcases hwp' with rfl | hpre'
          · exact cleanName_ne_self hd
          · intro hEq
            exact cleanName_slash_not_prefix (hEq ▸ hpre')
        refine existsEntry_iff.mpr ⟨w', (List.mem_erase_of_ne hw'f).mpr hw', Or.inr ?_⟩
        rcases hwp' with rfl | hpre'
        · exact hclean
        · exact (hclean.trans (List.prefix_append _ _)).trans hpre'
      · rw [if_neg hex]
        exact existsEntry_iff.mpr ⟨cleanName w, by simp, Or.inr hclean⟩
  · unfold sanitizeStep
    rw [if_pos hd]
    by_cases hex : existsEntry st (cleanName f)
    · rw [if_pos hex]
      exact existsEntry_iff.mpr ⟨w, (List.mem_erase_of_ne hwf).mpr hw, hwp⟩
    · rw [if_neg hex]
      exact existsEntry_iff.mpr
        ⟨w, List.mem_cons_of_mem _ ((List.mem_erase_of_ne hwf).mpr hw), hwp⟩

theorem sanitizeFold_preserves_exists :
    ∀ (rem : List Str) (st : List Str) (p : Str), hasDisallowed p = false →
      existsEntry st p = true →
      existsEntry (rem.foldl sanitizeStep st) p = true := by
  intro rem
  induction rem with
  | nil => intro st p _ h; exact h
  | cons f rest ih =>
    intro st p hp h
    exact ih _ p hp (sanitizeStep_preserves_exists hp h)

theorem sanitizeFold_no_disallowed :
    ∀ (rem : List Str) (st : List Str), st.Nodup →
      (∀ g ∈ st, hasDisallowed g = true → g ∈ rem) →
      ∀ g ∈ rem.foldl sanitizeStep st, hasDisallowed g = false := by
  intro rem
  induction rem with
  | nil =>
    intro st _ hcond g hg
    by_contra hdg
    have := hcond g hg (by simpa using hdg)
    simp at this
  | cons f rest ih =>
    intro st hnd hcond g hg
    refine ih (sanitizeStep st f) (sanitizeStep_nodup hnd) ?_ g hg
    intro g' hg' hdg'
    by_cases hd : hasDisallowed f
    · unfold sanitizeStep at hg'
      rw [if_pos hd] at hg'
      by_cases hex : existsEntry st (cleanName f)
      · rw [if_pos hex] at hg'
        have hmem := List.mem_of_mem_erase hg'
        have hne : g' ≠ f := (List.Nodup.mem_erase_iff hnd).mp hg' |>.1
        have := hcond g' hmem hdg'
        rcases List.mem_cons.mp this with rfl | hr
        · exact absurd rfl hne
        · exact hr
      · rw [if_neg hex] at hg'
        rcases List.mem_cons.mp hg' with rfl | hg''
        · exact absurd hdg' (by simp [cleanName_clean])
        · have hmem := List.mem_of_mem_erase hg''
          have hne : g' ≠ f := (List.Nodup.mem_erase_iff hnd).mp hg'' |>.1
          have := hcond g' hmem hdg'
          rcases List.mem_cons.mp this with rfl | hr
          · exact absurd rfl hne
          · exact hr
    · unfold sanitizeStep at hg'
      rw [if_neg hd] at hg'
      have := hcond g' hg' hdg'
      rcases List.mem_cons.mp this with rfl | hr
      · exact absurd hdg' (by simpa using hd)
      · exact hr

theorem sanitizeFold_dirty_entry :
    ∀ (rem : List Str), rem.Nodup → ∀ (st : List Str),
      ∀ f ∈ rem, hasDisallowed f = true → f ∈ st →
        existsEntry (rem.foldl sanitizeStep st) (cleanName f) = true := by
  intro rem
  induction rem with
  | nil => intro _ st f hf; exact absurd hf (List.not_mem_nil f)
  | cons f₀ rest ih =>
    intro hnd st f hf hdf hfst
    rcases List.mem_cons.mp hf with rfl | hf'
    · have hstep : existsEntry (sanitizeStep st f) (cleanName f) = true := by
        by_cases hex : existsEntry st (cleanName f)
        · exact sanitizeStep_preserves_exists (cleanName_clean f) hex
        · unfold sanitizeStep
          rw [if_pos hdf, if_neg hex]
          exact existsEntry_iff.mpr ⟨cleanName f, by simp, Or.inl rfl⟩
      exact sanitizeFold_preserves_exists rest _ _ (cleanName_clean f) hstep
    · have hne : f ≠ f₀ := by
        intro h
        exact (List.nodup_cons.mp hnd).1 (h ▸ hf')
      exact ih (List.nodup_cons.mp hnd).2 (sanitizeStep st f₀) f hf' hdf
        (sanitizeStep_mem_preserved hfst hne)

/-- Statement of claim C3 refuted below: when the cleaned path is occupied
by a directory, the dirty file is deleted and no file survives at the
cleaned name. -/
theorem c3_counterexample : ¬ C3Statement := by
  intro h
  have := (h [str "dist/css/style.css", str "dist/css@v"] (by decide)).1
    (str "dist/css@v") (by decide) (by decide)
  exact absurd this (by decide)

/-- C3 amended: after sanitation no surviving file path contains a
disallowed character, and for every dirty-named file some filesystem entry
(a file or a directory, not necessarily a file) exists at the truncated
path; a dirty file is renamed to exactly the truncation when nothing
exists there and deleted otherwise. -/
theorem c3_amended : ∀ init : List Str, init.Nodup →
    (∀ g ∈ sanitizeStage init, ¬ hasDisallowed g) ∧
    (∀ f ∈ init, hasDisallowed f →
      existsEntry (sanitizeStage init) (cleanName f) = true) := by
  intro init hnd
  constructor
  · intro g hg
    have := sanitizeFold_no_disallowed init init hnd (fun g hg _ => hg) g hg
    simp [this]
  · intro f hf hdf
    exact sanitizeFold_dirty_entry init hnd init f hf (by simpa using hdf) hf

/-- Witness for C3 amended: the dirty file `dist/css@v` is deleted because
the directory `dist/css` occupies its cleaned path, which therefore still
exists as an entry. -/
theorem c3_amended_witness :
    existsEntry (sanitizeStage [str "dist/css/style.css", str "dist/css@v"])
      (cleanName (str "dist/css@v")) = true :=
  (c3_amended [str "dist/css/style.css", str "dist/css@v"] (by decide)).2
    (str "dist/css@v") (by decide) (by decide)

/-! ### C1 and C2: the content rewrite stage -/

theorem not_html_of_xml {n : Str} (h : isXmlName n = true) :
    isHtmlName n = false := by
  by_contra hh
  have h2 : (str ".html") <:+ n := by
    have := Bool.not_eq_false (isHtmlName n) ▸ hh
    simpa [isHtmlName, List.isSuffixOf_iff_suffix] using this
  have h1 : (str ".xml") <:+ n := by
    simpa [isXmlName, List.isSuffixOf_iff_suffix] using h
  rcases List.suffix_or_suffix_of_suffix h1 h2 with h3 | h3
  · exact absurd h3 (by decide)
  · exact absurd h3 (by decide)

/-- Statement of claim C1 refuted below: the rewrite stage only touches
`*.html` and `*.xml` files, so a `main.js` file keeps the source origin. -/
theorem c1_counterexample : ¬ C1Statement := by
  intro h
  have h2 := (h [(str "main.js", srcOrigin ++ aboutPath)]
    (str "main.js", srcOrigin ++ aboutPath) (by simp)).2
    (str "main.js", srcOrigin ++ aboutPath) (by decide)
  exact h2 ((List.prefix_append srcOrigin aboutPath).isInfix)

/-- C1 amended: files not matching the `*.html`/`*.xml` globs are left
byte-identical (and may retain the source origin); an `*.html` file is
rewritten to `portalRemove (cacheBust (originSub content))` where the
origin-substitution output contains no source origin and contains
`https://blog.example.com/about` wherever `http://localhost:2368/about`
occurred; an `*.xml` file is rewritten to
`xmlStyRemove (protoSub (originSub content))` whose origin passes likewise
leave no source origin. -/
theorem c1_amended :
    ∀ (files : List (Str × Str)) (f : Str × Str), f ∈ files →
      (¬ isHtmlName f.1 → ¬ isXmlName f.1 → f ∈ rewriteStage files) ∧
      (isHtmlName f.1 →
        (f.1, portalRemove (cacheBust (originSub f.2))) ∈ rewriteStage files ∧
        ¬ srcOrigin <:+: originSub f.2 ∧
        ((srcOrigin ++ aboutPath) <:+: f.2 →
          (dstOrigin ++ aboutPath) <:+: originSub f.2)) ∧
      (isXmlName f.1 →
        (f.1, xmlStyRemove (protoSub (originSub f.2))) ∈ rewriteStage files ∧
        ¬ srcOrigin <:+: protoSub (originSub f.2) ∧
        ((srcOrigin ++ aboutPath) <:+: f.2 →
          (dstOrigin ++ aboutPath) <:+: originSub f.2)) := by
  intro files f hf
  refine ⟨?_, ?_, ?_⟩
  · intro h1 h2
    have heq : (if isHtmlName f.1 then (f.1, htmlRewrite f.2)
        else if isXmlName f.1 then (f.1, xmlRewrite f.2) else f) = f := by
      rw [if_neg (by simpa using h1), if_neg (by simpa using h2)]
    exact heq ▸ List.mem_map_of_mem _ hf
  · intro h1
    refine ⟨?_, originSub_no_src f.2, fun h => originSub_keeps_about h⟩
    have heq : (if isHtmlName f.1 then (f.1, htmlRewrite f.2)
        else if isXmlName f.1 then (f.1, xmlRewrite f.2) else f) =
        (f.1, htmlRewrite f.2) := by
      rw [if_pos h1]
    exact heq ▸ List.mem_map_of_mem _ hf
  · intro h2
    refine ⟨?_, xmlOriginPasses_no_src f.2, fun h => originSub_keeps_about h⟩
    have h1 : ¬ isHtmlName f.1 := by
      simp [not_html_of_xml h2]
    have heq : (if isHtmlName f.1 then (f.1, htmlRewrite f.2)
        else if isXmlName f.1 then (f.1, xmlRewrite f.2) else f) =
        (f.1, xmlRewrite f.2) := by
      rw [if_neg h1, if_pos h2]
    exact heq ▸ List.mem_map_of_mem _ hf

/-- Witness for C1 amended on a single `*.html` file containing the
example URL. -/
theorem c1_amended_witness :
    (str "a.html", portalRemove (cacheBust (originSub (srcOrigin ++ aboutPath)))) ∈
      rewriteStage [(str "a.html", srcOrigin ++ aboutPath)] ∧
    ¬ srcOrigin <:+: originSub (srcOrigin ++ aboutPath) ∧
    (dstOrigin ++ aboutPath) <:+: originSub (srcOrigin ++ aboutPath) := by
  have h := (c1_amended [(str "a.html", srcOrigin ++ aboutPath)]
    (str "a.html", srcOrigin ++ aboutPath) (by simp)).2.1 (by decide)
  exact ⟨h.1, h.2.1, h.2.2 (List.prefix_append _ _).isInfix⟩

/-- Statement of claim C2 refuted below: the portal-script removal can
splice the surrounding text into a fresh source-origin occurrence, which
the second run then rewrites. -/
theorem c2_counterexample : ¬ C2Statement := by
  intro h
  have h2 := h [(str "a.html",
    str "http:<script a ghost-portal b></script>//localhost:2368")]
  exact absurd h2 (by decide)

/-- C2 amended: the origin-substitution rewrites are idempotent — a second
application of the HTML origin pass, or of the XML origin and
protocol-relative passes, is a no-op, because their outputs contain no
residual match.  The stage as a whole is not idempotent: the removal
passes can splice the remaining text into new matches for the earlier
rewrites. -/
theorem c2_amended :
    (∀ s : Str, originSub (originSub s) = originSub s) ∧
    (∀ s : Str,
      protoSub (originSub (protoSub (originSub s))) = protoSub (originSub s)) :=
  ⟨originSub_idem, xmlOriginPasses_idem⟩

/-! ### C9: commutation of origin substitution and cache-buster stripping -/

theorem not_prefix_append_of_core {x a : Str}
    (h : (x.length ≤ a.length ∧ ¬ x <+: a) ∨
      (a.length ≤ x.length ∧ x.take a.length ≠ a)) :
    ∀ b, ¬ x <+: a ++ b := by
  intro b hx
  rcases h with ⟨hl, hnp⟩ | ⟨hl, hne⟩
  · exact hnp (List.prefix_of_prefix_length_le hx (List.prefix_append a b) hl)
  · have ha : a <+: x := List.prefix_of_prefix_length_le (List.prefix_append a b) hx hl
    exact hne (List.prefix_iff_eq_take.mp ha).symm

theorem dst_no_ext_start :
    ∀ j, j < dstOrigin.length → ∀ b, firstExt ((dstOrigin ++ b).drop j) = none := by
  have hcore : ∀ j < dstOrigin.length, ∀ e ∈ cacheExts,
      (e.length ≤ (dstOrigin.drop j).length ∧ ¬ e <+: dstOrigin.drop j) ∨
      ((dstOrigin.drop j).length ≤ e.length ∧
        e.take (dstOrigin.drop j).length ≠ dstOrigin.drop j) := by decide
  intro j hj b
  unfold firstExt
  rw [List.find?_eq_none]
  intro e he
  rw [List.drop_append_of_le_length (Nat.le_of_lt hj)]
  intro hp
  exact not_prefix_append_of_core (hcore j hj e he) b
    (List.isPrefixOf_iff_prefix.mp hp)

theorem src_no_ext_start :
    ∀ j, j < srcOrigin.length → ∀ b, firstExt ((srcOrigin ++ b).drop j) = none := by
  have hcore : ∀ j < srcOrigin.length, ∀ e ∈ cacheExts,
      (e.length ≤ (srcOrigin.drop j).length ∧ ¬ e <+: srcOrigin.drop j) ∨
      ((srcOrigin.drop j).length ≤ e.length ∧
        e.take (srcOrigin.drop j).length ≠ srcOrigin.drop j) := by decide
  intro j hj b
  unfold firstExt
  rw [List.find?_eq_none]
  intro e he
  rw [List.drop_append_of_le_length (Nat.le_of_lt hj)]
  intro hp
  exact not_prefix_append_of_core (hcore j hj e he) b
    (List.isPrefixOf_iff_prefix.mp hp)

theorem tryCacheMatch_none_of_firstExt {s : Str} (h : firstExt s = none) :
    tryCacheMatch s = none := by
  unfold tryCacheMatch
  rw [h]

theorem cacheBust_inert (a : Str)
    (h : ∀ j, j < a.length → ∀ b, firstExt ((a ++ b).drop j) = none) :
    ∀ t, cacheBust (a ++ t) = a ++ cacheBust t := by
  induction a with
  | nil => simp
  | cons c a' ih =>
    intro t
    have h0 : tryCacheMatch (c :: (a' ++ t)) = none := by
      apply tryCacheMatch_none_of_firstExt
      have := h 0 (by simp) t
      simpa [List.cons_append] using this
    rw [List.cons_append, cacheBust_nomatch h0]
    rw [ih (fun j hj b => by
      have := h (j + 1) (by simp only [List.length_cons]; omega) b
      simpa [List.cons_append] using this) t]
    rw [List.cons_append]

theorem cacheExts_no_h : ∀ e ∈ cacheExts, ∀ c ∈ e, c ≠ 'h' := by decide

theorem cacheExts_head_dot : ∀ e ∈ cacheExts, e.head? = some '.' := by decide

theorem cacheExts_pairwise_eq :
    ∀ e₁ ∈ cacheExts, ∀ e₂ ∈ cacheExts, e₁ <+: e₂ → e₁ = e₂ := by decide

theorem srcOrigin_allowed : ∀ c ∈ srcOrigin, bustAllowed c = true := by decide

theorem dstOrigin_allowed : ∀ c ∈ dstOrigin, bustAllowed c = true := by decide

theorem allowed_ne_excluded {c : Char} (h : bustAllowed c = false) : c ≠ 'h' := by
  intro rfl'
  rw [rfl'] at h
  exact absurd h (by decide)

theorem firstExt_eq_of_mem {e s : Str} (he : e ∈ cacheExts) (hp : e <+: s) :
    firstExt s = some e := by
  have hsome : (firstExt s).isSome := by
    unfold firstExt
    rw [List.find?_isSome]
    exact ⟨e, he, List.isPrefixOf_iff_prefix.mpr hp⟩
  obtain ⟨e', he'⟩ := Option.isSome_iff_exists.mp hsome
  obtain ⟨hmem, hp'⟩ := firstExt_mem he'
  have heq : e' = e := by
    rcases List.prefix_or_prefix_of_prefix hp' hp with h | h
    · exact cacheExts_pairwise_eq e' hmem e he h
    · exact (cacheExts_pairwise_eq e he e' hmem h).symm
  rw [he', heq]

theorem tryCacheMatch_intro {e : Str} (he : e ∈ cacheExts) {s : Str} {q : Char}
    {r : Str} (hp : s = e ++ q :: r) (hq : q = '?' ∨ q = '@') :
    tryCacheMatch s = some (e, r.dropWhile bustAllowed) := by
  have hfe : firstExt s = some e :=
    firstExt_eq_of_mem he (hp ▸ List.prefix_append e (q :: r))
  have hd : s.drop e.length = q :: r := by rw [hp, List.drop_left]
  unfold tryCacheMatch
  rw [hfe]
  show (match s.drop e.length with
    | [] => none
    | q :: rest =>
      if q == '?' || q == '@' then some (e, rest.dropWhile bustAllowed)
      else none) = some (e, r.dropWhile bustAllowed)
  rw [hd]
  show (if q == '?' || q == '@' then some (e, r.dropWhile bustAllowed) else none) =
    some (e, r.dropWhile bustAllowed)
  rw [if_pos (by rcases hq with rfl | rfl <;> decide)]

theorem dropWhile_head_false {α : Type} {p : α → Bool} :
    ∀ {l : List α} {c : α} {l' : List α}, l.dropWhile p = c :: l' → p c = false := by
  intro l
  induction l with
  | nil => intro c l' h; simp at h
  | cons a t ih =>
    intro c l' h
    by_cases hp : p a
    · rw [List.dropWhile_cons_of_pos hp] at h
      exact ih h
    · rw [List.dropWhile_cons_of_neg hp] at h
      obtain ⟨rfl, _⟩ := List.cons.inj h
      simpa using hp

theorem firstExt_none_of_head {c : Char} (hc : c ≠ '.') (x : Str) :
    firstExt (c :: x) = none := by
  unfold firstExt
  rw [List.find?_eq_none]
  intro e he hp
  have hdot := cacheExts_head_dot e he
  obtain ⟨e₀, e', rfl⟩ : ∃ e₀ e', e = e₀ :: e' := by
    cases e with
    | nil => simp at hdot
    | cons a b => exact ⟨a, b, rfl⟩
  have he₀ : e₀ = '.' := by simpa using hdot
  have := (List.cons_prefix_cons.mp (List.isPrefixOf_iff_prefix.mp hp)).1
  exact hc (this ▸ he₀ ▸ rfl)

theorem replaceAll_cons_ne (pat rep : Str) {c : Char} {rest : Str} {p₀ : Char}
    (hp : pat.head? = some p₀) (hne : c ≠ p₀) :
    replaceAll pat rep (c :: rest) = c :: replaceAll pat rep rest := by
  apply replaceAll_neg
  intro h
  obtain ⟨a, pt, rfl⟩ : ∃ a pt, pat = a :: pt := by
    cases pat with
    | nil => simp at hp
    | cons a b => exact ⟨a, b, rfl⟩
  have ha : a = p₀ := by simpa using hp
  exact hne ((List.cons_prefix_cons.mp h).1 ▸ ha ▸ rfl)

theorem replaceAll_chars (pat rep : Str) :
    ∀ (n s : Str), s.length ≤ n.length → ∀ c ∈ replaceAll pat rep s, c ∈ s ∨ c ∈ rep := by
  intro n
  induction n with
  | nil =>
    intro s hn c hc
    have : s = [] := List.eq_nil_of_length_eq_zero (Nat.le_zero.mp hn)
    subst this
    rw [replaceAll_nil] at hc
    simp at hc
  | cons _ n ih =>
    intro s hn c hc
    by_cases hm : pat ≠ [] ∧ pat <+: s
    · rw [replaceAll_pos pat rep hm.1 hm.2] at hc
      rcases List.mem_append.mp hc with h | h
      · exact Or.inr h
      · have hlen : (s.drop pat.length).length ≤ n.length := by
          have hp : 0 < pat.length := List.length_pos.mpr hm.1
          have hs : s ≠ [] := fun hnil =>
            hm.1 (List.prefix_nil.mp (hnil ▸ hm.2))
          have : 0 < s.length := List.length_pos.mpr hs
          simp only [List.length_drop]
          simp only [List.length_cons] at hn
          omega
        rcases ih _ hlen c h with h' | h'
        · exact Or.inl (List.mem_of_mem_drop h')
        · exact Or.inr h'
    · cases s with
      | nil =>
        rw [replaceAll_nil] at hc
        simp at hc
      | cons a rest =>
        have heq : replaceAll pat rep (a :: rest) = a :: replaceAll pat rep rest := by
          by_cases hpe : pat = []
          · subst hpe
            simp only [replaceAll, List.length_cons, replaceAllGo]
            rw [if_neg (by rintro ⟨hne, _⟩; exact hne rfl)]
          · exact replaceAll_neg pat rep (fun hpre => hm ⟨hpe, hpre⟩)
        rw [heq] at hc
        rcases List.mem_cons.mp hc with rfl | h
        · exact Or.inl (by simp)
        · have hlen : rest.length ≤ n.length := by
            simp only [List.length_cons] at hn
            omega
          rcases ih rest hlen c h with h' | h'
          · exact Or.inl (by simp [h'])
          · exact Or.inr h'

theorem originSub_prefix_transfer {t u : Str} (ht : ∀ c ∈ t, c ≠ 'h')
    (h : t <+: originSub u) : t <+: u := by
  rcases replaceAll_prefix_split srcOrigin dstOrigin (by decide) u u t (le_refl _) h with
    h1 | ⟨j, hj, _, _, hdrop⟩
  · exact h1
  · exfalso
    have hne : t.drop j ≠ [] := by
      intro hnil
      have := congrArg List.length hnil
      simp only [List.length_drop, List.length_nil] at this
      omega
    obtain ⟨c₀, tt, hc⟩ := List.exists_cons_of_ne_nil hne
    rw [hc] at hdrop
    have hdst : dstOrigin = 'h' :: (str "ttps://blog.example.com") := by decide
    rw [hdst, List.cons_append] at hdrop
    have hch := (List.cons_prefix_cons.mp hdrop).1
    have hmem : c₀ ∈ t :=
      List.mem_of_mem_drop (hc ▸ List.mem_cons_self c₀ tt)
    exact ht c₀ hmem hch

theorem cacheBust_prefix_transfer :
    ∀ (n u t : Str), u.length ≤ n.length → (∀ c ∈ t, bustAllowed c = true) →
      t <+: cacheBust u → t <+: u := by
  intro n
  induction n with
  | nil =>
    intro u t hn _ h
    have : u = [] := List.eq_nil_of_length_eq_zero (Nat.le_zero.mp hn)
    subst this
    rw [cacheBust_nil] at h
    exact h
  | cons _ n ih =>
    intro u t hn hall h
    cases u with
    | nil =>
      rw [cacheBust_nil] at h
      exact h
    | cons c rest =>
      rcases htc : tryCacheMatch (c :: rest) with _ | ⟨e, after⟩
      · rw [cacheBust_nomatch htc] at h
        rcases List.prefix_cons_iff.mp h with rfl | ⟨t', rfl, ht'⟩
        · exact List.nil_prefix
        · have hlen : rest.length ≤ n.length := by
            simp only [List.length_cons] at hn
            omega
          exact List.cons_prefix_cons.mpr
            ⟨rfl, ih rest t' hlen (fun d hd => hall d (by simp [hd])) ht'⟩
      · rw [cacheBust_match htc] at h
        obtain ⟨q, rest₀, hfe, hdrop, hq, hafter⟩ := tryCacheMatch_some htc
        obtain ⟨hmem, hpre⟩ := firstExt_mem hfe
        have hu : (c :: rest) = e ++ (q :: rest₀) := by
          rw [← hdrop]
          exact (List.prefix_iff_eq_append.mp hpre).symm
        rcases prefix_append_split h with hte | ⟨t₂, rfl, ht₂⟩
        · exact hte.trans (hu ▸ List.prefix_append e (q :: rest₀))
        · by_cases ht₂e : t₂ = []
          · subst ht₂e
            rw [List.append_nil]
            exact hpre
          · exfalso
            cases hma : after with
            | nil =>
              rw [hma, cacheBust_nil] at ht₂
              exact ht₂e (List.prefix_nil.mp ht₂)
            | cons e₀ after' =>
              have he₀ : bustAllowed e₀ = false := by
                rw [hma] at hafter
                exact dropWhile_head_false hafter.symm
              have hnm : tryCacheMatch (e₀ :: after') = none := by
                apply tryCacheMatch_none_of_firstExt
                apply firstExt_none_of_head
                intro rfl'
                rw [rfl'] at he₀
                exact absurd he₀ (by decide)
              rw [hma, cacheBust_nomatch hnm] at ht₂
              obtain ⟨c₂, t₂', rfl⟩ := List.exists_cons_of_ne_nil ht₂e
              have hc₂ := (List.cons_prefix_cons.mp ht₂).1
              have hba : bustAllowed c₂ = true := hall c₂ (by simp)
              rw [hc₂, he₀] at hba
              exact absurd hba (by simp)

theorem cacheBust_match_eq {s e after : Str} (h : tryCacheMatch s = some (e, after)) :
    cacheBust s = e ++ cacheBust after := by
  cases s with
  | nil =>
    rw [show tryCacheMatch ([] : Str) = none from by decide] at h
    exact Option.noConfusion h
  | cons c rest => exact cacheBust_match h

theorem srcOrigin_head : srcOrigin.head? = some 'h' := by decide

theorem bust_comm_aux :
    ∀ (n s : Str), s.length ≤ n.length →
      cacheBust (originSub s) = originSub (cacheBust s) := by
  intro n
  induction n with
  | nil =>
    intro s hn
    have hs : s = [] := List.eq_nil_of_length_eq_zero (Nat.le_zero.mp hn)
    subst hs
    simp only [originSub, replaceAll_nil, cacheBust_nil]
  | cons hd n ih =>
    intro s hn
    cases s with
    | nil => simp only [originSub, replaceAll_nil, cacheBust_nil]
    | cons c rest =>
      by_cases hm : srcOrigin <+: c :: rest
      · -- the origin pattern matches at the front: both sides substitute it first
        obtain ⟨z, hsz⟩ := hm
        have h1 : originSub (c :: rest) = dstOrigin ++ originSub z := by
          rw [← hsz]
          show replaceAll srcOrigin dstOrigin (srcOrigin ++ z) = _
          rw [replaceAll_pos srcOrigin dstOrigin (by decide)
            (List.prefix_append srcOrigin z), List.drop_left]
          rfl
        have hzlen : z.length ≤ n.length := by
          have hl := congrArg List.length hsz
          simp only [List.length_append, List.length_cons] at hl
          simp only [List.length_cons] at hn
          have h21 : srcOrigin.length = 21 := by decide
          omega
        calc cacheBust (originSub (c :: rest))
            = cacheBust (dstOrigin ++ originSub z) := by rw [h1]
          _ = dstOrigin ++ cacheBust (originSub z) :=
              cacheBust_inert dstOrigin dst_no_ext_start _
          _ = dstOrigin ++ originSub (cacheBust z) := by rw [ih z hzlen]
          _ = originSub (srcOrigin ++ cacheBust z) := by
              show _ = replaceAll srcOrigin dstOrigin (srcOrigin ++ cacheBust z)
              rw [replaceAll_pos srcOrigin dstOrigin (by decide)
                (List.prefix_append srcOrigin (cacheBust z)), List.drop_left]
              rfl
          _ = originSub (cacheBust (c :: rest)) := by
              rw [← hsz, cacheBust_inert srcOrigin src_no_ext_start z]
      · rcases htc : tryCacheMatch (c :: rest) with _ | ⟨e, after⟩
        · -- neither pattern matches at the front: both scanners step over c
          have h1 : originSub (c :: rest) = c :: originSub rest :=
            replaceAll_neg srcOrigin dstOrigin hm
          have hrest : rest.length ≤ n.length := by
            simp only [List.length_cons] at hn
            omega
          have htc2 : tryCacheMatch (c :: originSub rest) = none := by
            rcases h2 : tryCacheMatch (c :: originSub rest) with _ | ⟨e, a⟩
            · rfl
            · exfalso
              obtain ⟨q, rest', hfe, hdrop, hq, _⟩ := tryCacheMatch_some h2
              obtain ⟨hmem, hpre⟩ := firstExt_mem hfe
              have hEq : e ++ q :: rest' = c :: originSub rest := by
                rw [← hdrop]
                exact List.prefix_iff_eq_append.mp hpre
              have hpq : (e ++ [q]) <+: c :: originSub rest := by
                refine ⟨rest', ?_⟩
                rw [List.append_assoc, List.singleton_append]
                exact hEq
              have hq_ne_h : q ≠ 'h' := by rcases hq with rfl | rfl <;> decide
              have hno_h : ∀ d ∈ e ++ [q], d ≠ 'h' := by
                intro d hdm
                rcases List.mem_append.mp hdm with h' | h'
                · exact cacheExts_no_h e hmem d h'
                · rw [List.mem_singleton.mp h']
                  exact hq_ne_h
              have htrans : (e ++ [q]) <+: c :: rest := by
                apply originSub_prefix_transfer hno_h
                rw [← h1] at hpq
                exact hpq
              obtain ⟨z, hz⟩ := htrans
              have hsome : tryCacheMatch (c :: rest) =
                  some (e, z.dropWhile bustAllowed) := by
                refine tryCacheMatch_intro hmem ?_ hq
                rw [← hz, List.append_assoc, List.singleton_append]
              rw [htc] at hsome
              exact Option.noConfusion hsome
          have hns : ¬ srcOrigin <+: c :: cacheBust rest := by
            intro hcontra
            have hsrc : srcOrigin = 'h' :: str "ttp://localhost:2368" := by decide
            rw [hsrc] at hcontra
            have hc := List.cons_prefix_cons.mp hcontra
            have hallow : ∀ d ∈ str "ttp://localhost:2368", bustAllowed d = true := by
              decide
            have htl : str "ttp://localhost:2368" <+: rest :=
              cacheBust_prefix_transfer rest rest (str "ttp://localhost:2368")
                (le_refl _) hallow hc.2
            apply hm
            rw [hsrc, hc.1]
            exact List.cons_prefix_cons.mpr ⟨rfl, htl⟩
          calc cacheBust (originSub (c :: rest))
              = cacheBust (c :: originSub rest) := by rw [h1]
            _ = c :: cacheBust (originSub rest) := cacheBust_nomatch htc2
            _ = c :: originSub (cacheBust rest) := by rw [ih rest hrest]
            _ = originSub (c :: cacheBust rest) :=
                (replaceAll_neg srcOrigin dstOrigin hns).symm
            _ = originSub (cacheBust (c :: rest)) := by rw [cacheBust_nomatch htc]
        · -- a cache-buster suffix matches at the front; the extension and the
          -- delimiter are inert for the origin substitution
          obtain ⟨q, rest₀, hfe, hdrop, hq, hafter⟩ := tryCacheMatch_some htc
          obtain ⟨hmem, hpre⟩ := firstExt_mem hfe
          have hu : c :: rest = e ++ q :: rest₀ := by
            rw [← List.prefix_iff_eq_append.mp hpre, hdrop]
          have hq_ne_h : q ≠ 'h' := by rcases hq with rfl | rfl <;> decide
          have hno_h : ∀ d ∈ e ++ [q], d ≠ 'h' := by
            intro d hdm
            rcases List.mem_append.mp hdm with h' | h'
            · exact cacheExts_no_h e hmem d h'
            · rw [List.mem_singleton.mp h']
              exact hq_ne_h
          have hhd : ∀ d ∈ e ++ [q], srcOrigin.head? ≠ some d := by
            intro d hdm hcontra
            rw [srcOrigin_head] at hcontra
            exact hno_h d hdm (Option.some.inj hcontra).symm
          have hsplit : rest₀ = rest₀.takeWhile bustAllowed ++ after := by
            rw [hafter, List.takeWhile_append_dropWhile]
          have hcond : ∀ j, j < (rest₀.takeWhile bustAllowed).length →
              srcOrigin <+: (rest₀.takeWhile bustAllowed ++ after).drop j →
              srcOrigin <+: (rest₀.takeWhile bustAllowed).drop j := by
            intro j hj hx
            rw [List.drop_append_of_le_length (Nat.le_of_lt hj)] at hx
            rcases prefix_append_split hx with h1 | ⟨t₂, ht₂, hpre₂⟩
            · exact h1
            · cases t₂ with
              | nil =>
                rw [List.append_nil] at ht₂
                exact ht₂ ▸ List.prefix_refl _
              | cons e₀ t' =>
                exfalso
                obtain ⟨w, hw⟩ := hpre₂
                have hdw : rest₀.dropWhile bustAllowed = e₀ :: (t' ++ w) := by
                  rw [← hafter, ← hw, List.cons_append]
                have hba : bustAllowed e₀ = false := dropWhile_head_false hdw
                have hmem₀ : e₀ ∈ srcOrigin := by
                  rw [ht₂]
                  exact List.mem_append.mpr (Or.inr (List.mem_cons_self _ _))
                have htrue := srcOrigin_allowed e₀ hmem₀
                rw [hba] at htrue
                exact absurd htrue (by simp)
          have hB : replaceAll srcOrigin dstOrigin rest₀ =
              originSub (rest₀.takeWhile bustAllowed) ++ originSub after := by
            conv_lhs => rw [hsplit]
            exact replaceAll_append_factor srcOrigin dstOrigin (by decide)
              (rest₀.takeWhile bustAllowed) (rest₀.takeWhile bustAllowed) after
              (le_refl _) hcond
          have hS : originSub (c :: rest) =
              e ++ q :: (originSub (rest₀.takeWhile bustAllowed) ++ originSub after) := by
            rw [hu]
            show replaceAll srcOrigin dstOrigin (e ++ q :: rest₀) = _
            have h2 : e ++ q :: rest₀ = (e ++ [q]) ++ rest₀ := by
              rw [List.append_assoc, List.singleton_append]
            rw [h2, replaceAll_inert srcOrigin dstOrigin (by decide) (e ++ [q]) hhd rest₀,
              hB, List.append_assoc, List.singleton_append]
          have hRallowed : ∀ d ∈ originSub (rest₀.takeWhile bustAllowed),
              bustAllowed d = true := by
            intro d hdm
            rcases replaceAll_chars srcOrigin dstOrigin (rest₀.takeWhile bustAllowed)
              (rest₀.takeWhile bustAllowed) (le_refl _) d
              (by simpa [originSub] using hdm) with h' | h'
            · exact List.mem_takeWhile_imp h'
            · exact dstOrigin_allowed d h'
          have hdwA : (originSub after).dropWhile bustAllowed = originSub after := by
            cases after with
            | nil => simp [originSub, replaceAll_nil]
            | cons a₀ af' =>
              have hba : bustAllowed a₀ = false := dropWhile_head_false hafter.symm
              have hA : originSub (a₀ :: af') = a₀ :: originSub af' :=
                replaceAll_cons_ne srcOrigin dstOrigin srcOrigin_head
                  (allowed_ne_excluded hba)
              rw [hA]
              exact List.dropWhile_cons_of_neg (by simp [hba])
          have htc2 : tryCacheMatch (originSub (c :: rest)) =
              some (e, originSub after) := by
            rw [hS, tryCacheMatch_intro hmem rfl hq,
              List.dropWhile_append_of_pos hRallowed, hdwA]
          have hlen_after : after.length ≤ n.length := by
            have hl := tryCacheMatch_length htc
            simp only [List.length_cons] at hl hn
            omega
          calc cacheBust (originSub (c :: rest))
              = e ++ cacheBust (originSub after) := cacheBust_match_eq htc2
            _ = e ++ originSub (cacheBust after) := by rw [ih after hlen_after]
            _ = originSub (e ++ cacheBust after) := by
                show _ = replaceAll srcOrigin dstOrigin (e ++ cacheBust after)
                rw [replaceAll_inert srcOrigin dstOrigin (by decide) e
                  (fun d hdm => hhd d (List.mem_append.mpr (Or.inl hdm)))
                  (cacheBust after)]
                rfl
            _ = originSub (cacheBust (c :: rest)) := by rw [cacheBust_match_eq htc]

/-- C9: the origin substitution and the cache-buster stripping pass of the
HTML rewrite stage commute on every input text, and the two patterns match
disjoint sets of substrings: no string of the cache-buster shape (a known
static-asset extension followed by a `?`/`@` delimiter and allowed suffix
characters) equals the source origin literal. -/

theorem c9_rewrite_order_independent :
    (∀ s : Str, cacheBust (originSub s) = originSub (cacheBust s)) ∧
    (∀ m : Str, cacheMatched m → m ≠ srcOrigin) := by
  constructor
  · intro s
    exact bust_comm_aux s s (le_refl _)
  · intro m hmc
    obtain ⟨e, q, run, hmem, hq, hrun, hshape⟩ := hmc
    intro hcontra
    have hdot := cacheExts_head_dot e hmem
    obtain ⟨e₀, e', rfl⟩ : ∃ e₀ e', e = e₀ :: e' := by
      cases e with
      | nil => simp at hdot
      | cons a b => exact ⟨a, b, rfl⟩
    have he₀ : e₀ = '.' := by simpa using hdot
    rw [hshape] at hcontra
    have h0 : e₀ = 'h' := by
      have h1 := congrArg List.head? hcontra
      rw [srcOrigin_head] at h1
      simpa using h1
    rw [he₀] at h0
    exact absurd h0 (by decide)

/-- Witness for C9: the commutation instantiated on a concrete page fragment
containing both a cache-busted asset reference and the source origin, and the
disjointness instantiated on the concrete cache-buster match `.css?v`. -/

theorem c9_rewrite_order_independent_witness :
    cacheBust (originSub (str "x.css?v=1 http://localhost:2368/a.js@2")) =
      originSub (cacheBust (str "x.css?v=1 http://localhost:2368/a.js@2")) ∧
    str ".css?v" ≠ srcOrigin :=
  ⟨c9_rewrite_order_independent.1 _,
   c9_rewrite_order_independent.2 (str ".css?v")
     ⟨str ".css", '?', str "v", by decide, Or.inl rfl, by decide, by decide⟩⟩

end GhostBuilder
